import Mathlib

/-!
Verification of the statistical core of the `data-utils` repository:
`mpp/poe.py` (`make_poe`, `poe_to_terciles`), `data_utils/stats.py`
(`values_to_ptiles`) and `data_utils/gridded/grid.py` (`Grid.__init__`).

The Python code computes with IEEE floats; the embedding models numeric
values as rationals extended with a NaN element (`RVal`), mirroring the
NaN semantics the source relies on (every comparison with NaN is false,
NaN propagates through arithmetic, `==` on NaN is false).
-/

/-- A float value as used by the source: either NaN or a (rational) number.
Infinities do not arise on any path analysed here; division by zero, which
cannot occur on the guarded paths of the source, is mapped to NaN. -/
inductive RVal where
  | nan : RVal
  | val : ℚ → RVal
deriving DecidableEq

namespace RVal

/-- `numpy.isnan`. -/
def isNan : RVal → Bool
  | .nan => true
  | .val _ => false

/-- Addition, NaN-propagating. -/
def add : RVal → RVal → RVal
  | .val a, .val b => .val (a + b)
  | _, _ => .nan

/-- Subtraction, NaN-propagating. -/
def sub : RVal → RVal → RVal
  | .val a, .val b => .val (a - b)
  | _, _ => .nan

/-- Multiplication, NaN-propagating. -/
def mul : RVal → RVal → RVal
  | .val a, .val b => .val (a * b)
  | _, _ => .nan

/-- Division, NaN-propagating.  A zero divisor yields NaN here; on every
path the source actually takes, the guards make the divisor nonzero, so
this convention is never exercised by the theorems below. -/
def div : RVal → RVal → RVal
  | .val a, .val b => if b = 0 then .nan else .val (a / b)
  | _, _ => .nan

/-- IEEE `<`: false whenever either side is NaN. -/
def lt : RVal → RVal → Bool
  | .val a, .val b => decide (a < b)
  | _, _ => false

/-- IEEE `<=`: false whenever either side is NaN. -/
def le : RVal → RVal → Bool
  | .val a, .val b => decide (a ≤ b)
  | _, _ => false

/-- IEEE `==`: false whenever either side is NaN (in particular NaN ≠ NaN). -/
def beq : RVal → RVal → Bool
  | .val a, .val b => a == b
  | _, _ => false

instance : Add RVal := ⟨RVal.add⟩
instance : Sub RVal := ⟨RVal.sub⟩
instance : Mul RVal := ⟨RVal.mul⟩
instance : Div RVal := ⟨RVal.div⟩
instance : BEq RVal := ⟨RVal.beq⟩

@[simp] theorem val_add (a b : ℚ) : (val a) + (val b) = val (a + b) := rfl
@[simp] theorem val_sub (a b : ℚ) : (val a) - (val b) = val (a - b) := rfl
@[simp] theorem val_mul (a b : ℚ) : (val a) * (val b) = val (a * b) := rfl
@[simp] theorem nan_add (x : RVal) : nan + x = nan := rfl
@[simp] theorem nan_sub (x : RVal) : nan - x = nan := rfl
@[simp] theorem nan_mul (x : RVal) : nan * x = nan := rfl
@[simp] theorem add_nan (x : RVal) : x + nan = nan := by cases x <;> rfl
@[simp] theorem sub_nan (x : RVal) : x - nan = nan := by cases x <;> rfl
@[simp] theorem mul_nan (x : RVal) : x * nan = nan := by cases x <;> rfl
@[simp] theorem val_div (a b : ℚ) :
    (val a) / (val b) = if b = 0 then nan else val (a / b) := rfl
@[simp] theorem nan_div (x : RVal) : nan / x = nan := rfl
@[simp] theorem div_nan (x : RVal) : x / nan = nan := by cases x <;> rfl
@[simp] theorem lt_val_val (a b : ℚ) : lt (val a) (val b) = decide (a < b) := rfl
@[simp] theorem le_val_val (a b : ℚ) : le (val a) (val b) = decide (a ≤ b) := rfl
@[simp] theorem lt_nan_left (x : RVal) : lt nan x = false := rfl
@[simp] theorem lt_nan_right (x : RVal) : lt x nan = false := by cases x <;> rfl
@[simp] theorem le_nan_left (x : RVal) : le nan x = false := rfl
@[simp] theorem le_nan_right (x : RVal) : le x nan = false := by cases x <;> rfl
@[simp] theorem beq_val_val (a b : ℚ) : (val a == val b) = (a == b) := rfl
@[simp] theorem beq_nan_left (x : RVal) : (nan == x) = false := rfl
@[simp] theorem beq_nan_right (x : RVal) : (x == nan) = false := by cases x <;> rfl
@[simp] theorem isNan_val (a : ℚ) : (val a).isNan = false := rfl
@[simp] theorem isNan_nan : (nan : RVal).isNan = true := rfl

end RVal

/-- Rational `<` as a Bool-valued comparison, for use with `bisect`. -/
def qlt (p q : ℚ) : Bool := decide (p < q)

/-- The loop of Python's `bisect.bisect` (= `bisect_right`), fuelled.
Each iteration shrinks `hi - lo`, so fuel `≥ hi - lo` reproduces the
library loop exactly:
`while lo < hi: mid = (lo+hi)//2; if x < a[mid]: hi = mid else lo = mid+1`. -/
def bisectGo (lt : α → α → Bool) (a : List α) (x : α) : Nat → Nat → Nat → Nat
  | 0, lo, _ => lo
  | fuel + 1, lo, hi =>
    if lo < hi then
      let mid := (lo + hi) / 2
      if lt x (a.getD mid x) then bisectGo lt a x fuel lo mid
      else bisectGo lt a x fuel (mid + 1) hi
    else lo

/-- Python's `bisect.bisect(a, x)` (rightmost insertion point). -/
def bisect (lt : α → α → Bool) (a : List α) (x : α) : Nat :=
  bisectGo lt a x (a.length + 1) 0 a.length

theorem bisectGo_spec (lt : α → α → Bool) (a : List α) (x : α)
    (hmono : ∀ i j, i ≤ j → j < a.length →
      lt x (a.getD i x) = true → lt x (a.getD j x) = true) :
    ∀ fuel lo hi, hi - lo ≤ fuel → lo ≤ hi → hi ≤ a.length →
    (∀ j, j < lo → lt x (a.getD j x) = false) →
    (∀ j, hi ≤ j → j < a.length → lt x (a.getD j x) = true) →
    lo ≤ bisectGo lt a x fuel lo hi ∧ bisectGo lt a x fuel lo hi ≤ hi ∧
    (∀ j, j < bisectGo lt a x fuel lo hi → lt x (a.getD j x) = false) ∧
    (∀ j, bisectGo lt a x fuel lo hi ≤ j → j < a.length →
      lt x (a.getD j x) = true) := by
  intro fuel
  induction fuel with
  | zero =>
    intro lo hi hfuel hlohi hhi hpre hpost
    have hlo : lo = hi := by omega
    subst hlo
    exact ⟨le_refl _, le_refl _, hpre, fun j hj hj2 => hpost j hj hj2⟩
  | succ n ih =>
    intro lo hi hfuel hlohi hhi hpre hpost
    by_cases h : lo < hi
    · simp only [bisectGo, h, if_true]
      set mid := (lo + hi) / 2 with hmid
      have hmidlo : lo ≤ mid := by omega
      have hmidhi : mid < hi := by omega
      by_cases hc : lt x (a.getD mid x) = true
      · rw [if_pos hc]
        have hpost2 : ∀ j, mid ≤ j → j < a.length → lt x (a.getD j x) = true :=
          fun j hj hj2 => hmono mid j hj hj2 hc
        have := ih lo mid (by omega) (by omega) (by omega) hpre hpost2
        exact ⟨this.1, le_trans this.2.1 (le_of_lt hmidhi), this.2.2⟩
      · rw [if_neg hc]
        have hc2 : lt x (a.getD mid x) = false := by
          cases hcc : lt x (a.getD mid x) with
          | false => rfl
          | true => exact absurd hcc hc
        have hpre2 : ∀ j, j < mid + 1 → lt x (a.getD j x) = false := by
          intro j hj
          by_cases hjlo : j < lo
          · exact hpre j hjlo
          · have hjm : j ≤ mid := by omega
            cases hcc : lt x (a.getD j x) with
            | false => rfl
            | true =>
              have := hmono j mid hjm (by omega) hcc
              rw [this] at hc2
              exact absurd hc2 (by simp)
        have := ih (mid + 1) hi (by omega) (by omega) hhi hpre2 hpost
        exact ⟨by omega, this.2.1, this.2.2⟩
    · simp only [bisectGo, h, if_false]
      have hlo : lo = hi := by omega
      subst hlo
      exact ⟨le_refl _, le_refl _, hpre, fun j hj hj2 => hpost j hj hj2⟩

/-- Characterisation of `bisect` on lists where `lt x (a j)` is upward
closed in `j` (in particular on sorted lists): everything strictly below
the result compares `≥ x`... i.e. `¬ (x < a j)`, and everything from the
result on compares `> x`. -/
theorem bisect_spec (lt : α → α → Bool) (a : List α) (x : α)
    (hmono : ∀ i j, i ≤ j → j < a.length →
      lt x (a.getD i x) = true → lt x (a.getD j x) = true) :
    bisect lt a x ≤ a.length ∧
    (∀ j, j < bisect lt a x → lt x (a.getD j x) = false) ∧
    (∀ j, bisect lt a x ≤ j → j < a.length → lt x (a.getD j x) = true) := by
  have := bisectGo_spec lt a x hmono (a.length + 1) 0 a.length
    (by omega) (by omega) (le_refl _)
    (fun j hj => absurd hj (Nat.not_lt_zero j))
    (fun j hj hj2 => absurd hj2 (by omega))
  exact ⟨this.2.1, this.2.2.1, this.2.2.2⟩

/-- Modelled from the spec: `find_nearest_index` comes from the external
`stats_utils.stats` package (not part of this repository); per the spec it
"finds the nearest discretized `x` index" for a value, i.e. the index of
the array element minimising the absolute distance to the value, taking
the first such index when several are equally near. -/
def find_nearest_index (xs : List ℚ) (t : ℚ) : Nat :=
  match xs with
  | [] => 0
  | [_] => 0
  | a :: b :: rest =>
    let r := find_nearest_index (b :: rest) t
    if |(b :: rest).getD r 0 - t| < |a - t| then r + 1 else 0

theorem find_nearest_index_spec (xs : List ℚ) (t : ℚ) (hne : xs ≠ []) :
    find_nearest_index xs t < xs.length ∧
    (∀ j, j < xs.length →
      |xs.getD (find_nearest_index xs t) 0 - t| ≤ |xs.getD j 0 - t|) ∧
    (∀ j, j < find_nearest_index xs t →
      |xs.getD (find_nearest_index xs t) 0 - t| < |xs.getD j 0 - t|) := by
  induction xs with
  | nil => exact absurd rfl hne
  | cons a tail ih =>
    cases tail with
    | nil =>
      refine ⟨by simp [find_nearest_index], ?_, ?_⟩
      · intro j hj
        simp only [List.length_cons, List.length_nil] at hj
        interval_cases j <;> simp [find_nearest_index]
      · intro j hj
        simp [find_nearest_index] at hj
    | cons b rest =>
      have ihs := ih (by simp)
      set r := find_nearest_index (b :: rest) t with hr
      by_cases hcmp : |(b :: rest).getD r 0 - t| < |a - t|
      · have hfni : find_nearest_index (a :: b :: rest) t = r + 1 := by
          simp only [find_nearest_index, ← hr, hcmp, if_true]
        rw [hfni]
        refine ⟨by simpa using ihs.1, ?_, ?_⟩
        · intro j hj
          cases j with
          | zero => simpa using le_of_lt hcmp
          | succ m =>
            have := ihs.2.1 m (by simpa using hj)
            simpa using this
        · intro j hj
          cases j with
          | zero => simpa using hcmp
          | succ m =>
            have := ihs.2.2 m (by omega)
            simpa using this
      · have hfni : find_nearest_index (a :: b :: rest) t = 0 := by
          simp only [find_nearest_index, ← hr, hcmp, if_false]
        rw [hfni]
        refine ⟨by simp, ?_, ?_⟩
        · intro j hj
          cases j with
          | zero => simp
          | succ m =>
            have h1 : |a - t| ≤ |(b :: rest).getD r 0 - t| := not_lt.mp hcmp
            have h2 := ihs.2.1 m (by simpa using hj)
            simp only [List.getD_cons_zero, List.getD_cons_succ]
            exact le_trans h1 h2
        · intro j hj
          exact absurd hj (Nat.not_lt_zero j)

/-- `getD` on a mapped list, inside the range. -/
theorem getD_map_of_lt (f : α → β) (l : List α) (j : Nat) (hj : j < l.length)
    (d : α) (d2 : β) : (l.map f).getD j d2 = f (l.getD j d) := by
  simp only [List.getD_eq_getElem?_getD, List.getElem?_map]
  rw [List.getElem?_eq_getElem hj]
  rfl

/-- `numpy.linspace(a, b, n)`: `n` evenly spaced points from `a` to `b`
inclusive. -/
def linspace (a b : ℚ) (n : Nat) : List ℚ :=
  (List.range n).map (fun (j : Nat) => a + (b - a) * (j : ℚ) / ((n : ℚ) - 1))

/-- `numpy.cumsum` of a 1-D array: the list of prefix sums. -/
def cumsum (l : List ℚ) : List ℚ :=
  (List.range l.length).map (fun j => (l.take (j + 1)).sum)

/-- `numpy.max` of a 1-D array (the source only applies it to the nonempty
1000-point cumulative sum; the empty default is irrelevant there). -/
def listMax (l : List ℚ) : ℚ := l.foldl max (l.headD 0)

theorem le_listMax (l : List ℚ) (a : ℚ) (ha : a ∈ l) : a ≤ listMax l := by
  have key : ∀ (l2 : List ℚ) (init : ℚ), init ≤ l2.foldl max init ∧
      ∀ b ∈ l2, b ≤ l2.foldl max init := by
    intro l2
    induction l2 with
    | nil => exact fun init => ⟨le_refl _, by simp⟩
    | cons c tl ih =>
      intro init
      refine ⟨le_trans (le_max_left init c) (ih (max init c)).1, ?_⟩
      intro b hb
      rcases List.mem_cons.mp hb with hb | hb
      · subst hb
        exact le_trans (le_max_right init b) (ih (max init b)).1
      · exact (ih (max init c)).2 b hb
  exact (key l (l.headD 0)).2 a ha

/-!
## `make_poe` (`mpp/poe.py`)

The Gaussian density `scipy.stats.norm.pdf` and the Gaussian quantile
function `scipy.stats.norm.ppf` are external library functions; the model
takes them as parameters (`normpdf x mu std` and `normppf p`).  The claims
that need facts about them take those facts as hypotheses.

`make_poe` is modelled on the path on which the source succeeds: a 1-D
ensemble (one location).  The shape-level behaviour on other inputs is
modelled separately below (`make_poe_shape`).
-/

/-- `make_poe` from `mpp/poe.py` (computation path; the `make_plot`
branch only renders the already-computed arrays). -/
def make_poe (normpdf : ℚ → ℚ → ℚ → ℚ) (normppf : ℚ → ℚ)
    (ensemble_array : List ℚ) (ptiles : List ℚ) (kernel_std : ℚ) : List ℚ :=
  let num_xvals : Nat := 1000
  let num_members := ensemble_array.length
  let x := linspace (-4) 4 num_xvals
  -- kernels = scipy.stats.norm.pdf(x, ensemble_array[:, np.newaxis], kernel_std) / num_members
  let kernels := ensemble_array.map
    (fun e => x.map (fun xv => normpdf xv e kernel_std / (num_members : ℚ)))
  -- final_pdf = np.sum(kernels, axis=0)
  let final_pdf := (List.range x.length).map
    (fun j => (kernels.map (fun row => row.getD j 0)).sum)
  -- final_poe = 1 - np.cumsum(final_pdf) / np.max(np.cumsum(final_pdf))
  let cs := cumsum final_pdf
  let final_poe := cs.map (fun c => 1 - c / listMax cs)
  -- output: final_poe at the nearest x-index of each norm.ppf(ptile/100)
  (ptiles.map (fun p => normppf (p / 100))).map
    (fun z => final_poe.getD (find_nearest_index x z) 0)

/-- The reference algorithm exactly as the claim states it: build
`x = linspace(-4, 4, N)` with `N = 1000`; for each member evaluate a
Gaussian PDF centered at the member's value with standard deviation
`kernel_std` at every `x` and divide by the number of members; sum these
kernels into a mixture PDF; form `poe(x) = 1 - cumsum(pdf)/max(cumsum(pdf))`;
report `poe` at the discretized `x` index nearest to `Φ⁻¹(p/100)` for each
requested percentile `p`. -/
def reference_poe (normpdf : ℚ → ℚ → ℚ → ℚ) (normppf : ℚ → ℚ)
    (ensemble_array : List ℚ) (ptiles : List ℚ) (kernel_std : ℚ) : List ℚ :=
  let N : Nat := 1000
  let x := linspace (-4) 4 N
  let mixture_pdf := (List.range N).map
    (fun j => (ensemble_array.map
      (fun member => normpdf (x.getD j 0) member kernel_std /
        (ensemble_array.length : ℚ))).sum)
  let cs := cumsum mixture_pdf
  let poe := cs.map (fun c => 1 - c / listMax cs)
  ptiles.map (fun p => poe.getD (find_nearest_index x (normppf (p / 100))) 0)

/-!
## Shape-level semantics of `make_poe`

`make_poe`'s array operations are modelled on shapes (lists of dimension
sizes) with NumPy's broadcasting rules, to settle what input shapes the
function accepts.  `none` means the call raises.
-/

/-- NumPy broadcast of a single pair of aligned dimensions. -/
def broadcastDim (a b : Nat) : Option Nat :=
  if a = b then some a else if a = 1 then some b else if b = 1 then some a
  else none

/-- NumPy broadcast of two shapes given reversed (aligned from the
trailing side). -/
def broadcastRev : List Nat → List Nat → Option (List Nat)
  | [], s => some s
  | s, [] => some s
  | a :: as2, b :: bs => do
    let d ← broadcastDim a b
    let rest ← broadcastRev as2 bs
    pure (d :: rest)

/-- NumPy broadcast of two shapes. -/
def broadcastShapes (s1 s2 : List Nat) : Option (List Nat) :=
  (broadcastRev s1.reverse s2.reverse).map List.reverse

/-- Shape semantics of `make_poe` for an input ensemble of shape `s`:
`shape[member_axis]` (raises when out of range), `ensemble_array[:, np.newaxis]`,
broadcasting against the 1000-point `x` grid inside `norm.pdf`,
`np.sum(..., axis=0)`, the flattening `np.cumsum`, `np.max` (raises on a
zero-size array), and the final per-percentile scalar lookups collected in
a Python list (a 1-D result of length `num_ptiles`). -/
def make_poe_shape (s : List Nat) (member_axis : Nat) (num_ptiles : Nat) :
    Option (List Nat) := do
  -- num_members = ensemble_array.shape[member_axis]
  guard (member_axis < s.length)
  match s with
  | [] => none                      -- ensemble_array[:, np.newaxis] needs an axis
  | d0 :: rest => do
    -- ensemble_array[:, np.newaxis] : (d0, 1, rest...), broadcast with x : (1000,)
    let ks ← broadcastShapes (d0 :: 1 :: rest) [1000]
    -- np.sum(kernels, axis=0)
    let ps := ks.tail
    -- np.cumsum flattens; np.max raises on an empty array
    let n := ps.prod
    guard (0 < n)
    -- final_poe : (n,); each output entry is the scalar final_poe[index]
    pure [num_ptiles]

/-!
## `poe_to_terciles` (`mpp/poe.py`)

`poe` is a 2-D array (rows = requested percentiles, columns = locations),
modelled as its list of rows.
-/

/-- `poe_to_terciles` from `mpp/poe.py`. -/
def poe_to_terciles (poe : List (List ℚ)) (ptiles : List ℚ) :
    Except String (List ℚ × List ℚ × List ℚ) :=
  if ¬ ((33 : ℚ) ∈ ptiles ∧ (67 : ℚ) ∈ ptiles) then
    .error "ptiles must contain 33 and 67"
  else
    let below := (poe.getD (find_nearest_index ptiles 33) []).map (fun q => 1 - q)
    let above := poe.getD (find_nearest_index ptiles 67) []
    let near := List.zipWith (fun b a => 1 - (b + a)) below above
    .ok (below, near, above)

/-- An `Except` value is an error. -/
def isError : Except ε α → Bool
  | .error _ => true
  | .ok _ => false

/-!
## `values_to_ptiles` (`data_utils/stats.py`)

`array` is the 1-D observation array, `climo` the 2-D climatology
(reference-percentile rows × location columns), modelled as its list of
*columns* (`climo[:,loc]` is what every per-location computation uses;
a rectangular NumPy array is determined by its columns — shapes with a
zero dimension and a nonzero other dimension are not representable this
way and are outside the model).  `ref_ptiles` is a parameter vector of
plain numbers.
-/

/-- The Python index `bisect.bisect(ref_ptiles, 0.50) - 1` applied to an
axis of size `clen`: `-1` wraps around to the last element. -/
def pMid (ref : List ℚ) (clen : Nat) : Nat :=
  if bisect qlt ref (1/2) = 0 then clen - 1 else bisect qlt ref (1/2) - 1

/-- The per-location conditional-expression chain of `values_to_ptiles`
(`data_utils/stats.py`), for one observation `obs` and one climatology
column `c`.  Branches appear in source order; all out-of-range accesses
that the source's validation rules out use a NaN default. -/
def ptileOfObs (c : List RVal) (ref : List ℚ) (k : ℚ) (obs : RVal) : RVal :=
  let lastIdx := ref.length - 1          -- ptile_last = size(ref_ptiles) - 1
  let cmid := c.getD (pMid ref c.length) .nan   -- climo[ptile_50th, loc]
  let clast := c.getD lastIdx .nan              -- climo[ptile_last, loc]
  let c0 := c.getD 0 .nan                       -- climo[0, loc]
  let p100 := RVal.val k * (clast - cmid) + cmid
  let p0 := RVal.val k * (c0 - cmid) + cmid
  -- if numpy.isnan(obs)
  if obs.isNan then .nan
  -- elif obs in climo[:, loc]: ref_ptiles[argwhere(climo[:,loc] == obs)[0][0]]
  else if c.contains obs then .val (ref.getD (c.findIdx (fun y => y == obs)) 0)
  -- elif obs >= k*(climo[last] - climo[mid]) + climo[mid]
  else if RVal.le p100 obs then .val 1
  -- elif climo[last] < obs < p100: interpolate between ref[last] and 1
  else if RVal.lt clast obs && RVal.lt obs p100 then
    .val (ref.getD lastIdx 0) +
      ((obs - clast) / (p100 - clast)) * (.val 1 - .val (ref.getD lastIdx 0))
  -- elif obs <= k*(climo[0] - climo[mid]) + climo[mid]
  else if RVal.le obs p0 then .val 0
  -- elif obs < climo[0] and obs > p0: interpolate between ref[0] and 0
  else if RVal.lt obs c0 && RVal.lt p0 obs then
    .val (ref.getD 0 0) +
      ((obs - c0) / (p0 - c0)) * (.val 0 - .val (ref.getD 0 0))
  -- elif climo[0] < obs < climo[last]: interpolate between the bracketing rows
  else if RVal.lt c0 obs && RVal.lt obs clast then
    let i := bisect RVal.lt c obs
    .val (ref.getD (i - 1) 0) +
      (.val (ref.getD i 0) - .val (ref.getD (i - 1) 0)) *
        ((obs - c.getD (i - 1) .nan) / (c.getD i .nan - c.getD (i - 1) .nan))
  -- else NaN
  else .nan

/-- `values_to_ptiles` from `data_utils/stats.py`: dimension validation,
then the per-location comprehension.  The `ndim` checks are inherent in
the model's types.  The bare `try/except` around the comprehension fires
exactly when `ref_ptiles` is empty and some observation is non-NaN: then
`climo[len(ref_ptiles)-1, loc]` indexes row `-1` of a zero-row array and
raises `IndexError`, which the `except` clause converts. -/
def values_to_ptiles (array : List RVal) (climo : List (List RVal))
    (ref_ptiles : List ℚ) (k : ℚ) : Except String (List RVal) :=
  if array.length ≠ climo.length then
    .error "Size of obs array does not match size of 2nd dim of climo array."
  else if ¬ (climo.all (fun col => col.length = ref_ptiles.length)) then
    .error "Size of climo array (1st dim) does not match size reference percentiles array."
  else if ref_ptiles.length = 0 ∧ ∃ o ∈ array, o.isNan = false then
    .error "Percentile calculation failed."
  else
    .ok (array.enum.map (fun p => ptileOfObs (climo.getD p.1 []) ref_ptiles k p.2))

/-!
## `Grid.__init__` (`data_utils/gridded/grid.py`)

The model covers the preset-name dispatch, the custom-grid truthiness
check and the attribute assignments of `Grid.__init__`.  The derived
attributes (`num_y`, `num_x`, `lats`, `lons`) are computed afterwards from
the assigned ones and are not needed by the claim.  Python truthiness:
`None` is falsy, the number `0` is falsy, a two-element corner tuple is
always truthy. -/

structure Grid where
  name : String
  ll_corner : ℚ × ℚ
  ur_corner : ℚ × ℚ
  res : ℚ
  type : String
deriving DecidableEq

/-- The built-in grid names accepted by the `elif` chain of
`Grid.__init__`. -/
def builtinGridNames : List String :=
  ["1deg_global", "1deg-global", "2deg_global", "2deg-global",
   "2.5deg_global", "2.5deg-global", "2deg_conus", "2deg-conus",
   "1/6th_deg_global", "1/6th-deg-global",
   "0.5deg-global", "0.5-deg-global-center-aligned",
   "0.5deg-global-edge-aligned"]

/-- `Grid.__init__` from `data_utils/gridded/grid.py`. -/
def grid_init (name : Option String) (ll_corner ur_corner : Option (ℚ × ℚ))
    (res : Option ℚ) (type : String) : Except String Grid :=
  if name = some "1deg_global" ∨ name = some "1deg-global" then
    .ok ⟨(name.getD ""), (-90, 0), (90, 359), 1, "latlon"⟩
  else if name = some "2deg_global" ∨ name = some "2deg-global" then
    .ok ⟨(name.getD ""), (-90, 0), (90, 358), 2, "latlon"⟩
  else if name = some "2.5deg_global" ∨ name = some "2.5deg-global" then
    .ok ⟨(name.getD ""), (-90, 0), (90, 357.5), 2.5, "latlon"⟩
  else if name = some "2deg_conus" ∨ name = some "2deg-conus" then
    .ok ⟨(name.getD ""), (20, 230), (56, 300), 2, "latlon"⟩
  else if name = some "1/6th_deg_global" ∨ name = some "1/6th-deg-global" then
    .ok ⟨(name.getD ""), (-89.9167, 0.0833), (89.9167, 359.9167), 1/6, "latlon"⟩
  else if name = some "0.5deg-global" ∨ name = some "0.5-deg-global-center-aligned" then
    .ok ⟨(name.getD ""), (-89.75, 0.25), (89.75, 359.75), 0.5, "latlon"⟩
  else if name = some "0.5deg-global-edge-aligned" then
    .ok ⟨(name.getD ""), (-90, 0), (90, 359.5), 0.5, "latlon"⟩
  -- otherwise create a custom grid definition
  else if ll_corner = none ∨ ur_corner = none ∨ res = none ∨ res = some 0 then
    .error "You must either supply the name of a built-in Grid, or an ll_corner, ur_corner, and res to create a custom Grid"
  else
    .ok ⟨"custom", ll_corner.getD (0, 0), ur_corner.getD (0, 0),
          res.getD 0, type⟩


/-!
## General lemmas
-/

theorem length_linspace (a b : ℚ) (n : Nat) : (linspace a b n).length = n := by
  unfold linspace
  rw [List.length_map, List.length_range]

/-- When `t` occurs in `xs`, the nearest index is the first index of `t`. -/
theorem fni_eq_indexOf (xs : List ℚ) (t : ℚ) (ht : t ∈ xs) :
    find_nearest_index xs t = xs.indexOf t := by
  have hne : xs ≠ [] := List.ne_nil_of_mem ht
  obtain ⟨hlt, hmin, hstrict⟩ := find_nearest_index_spec xs t hne
  have hidx : xs.indexOf t < xs.length := List.indexOf_lt_length.mpr ht
  have hat : xs.getD (xs.indexOf t) 0 = t := by
    rw [List.getD_eq_getElem?_getD, List.getElem?_eq_getElem hidx]
    simp [List.getElem_indexOf hidx]
  have h0 : |xs.getD (find_nearest_index xs t) 0 - t| ≤ 0 := by
    have := hmin (xs.indexOf t) hidx
    rw [hat] at this
    simpa using this
  have hft : xs.getD (find_nearest_index xs t) 0 = t := by
    have h1 := abs_nonneg (xs.getD (find_nearest_index xs t) 0 - t)
    have h2 := le_antisymm h0 h1
    have := abs_eq_zero.mp h2
    linarith [sub_eq_zero.mp this]
  have hle : find_nearest_index xs t ≤ xs.indexOf t := by
    by_contra h
    push_neg at h
    have := hstrict (xs.indexOf t) h
    rw [hat, hft] at this
    simp at this
  have hge : xs.indexOf t ≤ find_nearest_index xs t := by
    by_contra h
    push_neg at h
    have h2 : find_nearest_index xs t < xs.findIdx (fun x => x == t) := h
    have hp := List.not_of_lt_findIdx h2
    have hb : find_nearest_index xs t < xs.length :=
      Nat.le_trans h2 (List.findIdx_le_length _)
    have heq : xs[find_nearest_index xs t] = t := by
      have hgd : xs.getD (find_nearest_index xs t) 0 =
          xs[find_nearest_index xs t] := by
        rw [List.getD_eq_getElem?_getD, List.getElem?_eq_getElem hb]
        rfl
      rw [← hgd]
      exact hft
    rw [heq] at hp
    simp at hp
  omega

/-- `getD` of the location-wise `1 - (b + a)` combination. -/
theorem getD_zipWith_near (b a : List ℚ) (loc : Nat)
    (hb : loc < b.length) (ha : loc < a.length) :
    (List.zipWith (fun x y => 1 - (x + y)) b a).getD loc 0 =
      1 - (b.getD loc 0 + a.getD loc 0) := by
  rw [List.getD_eq_getElem?_getD, List.getElem?_zipWith,
    List.getElem?_eq_getElem hb, List.getElem?_eq_getElem ha,
    List.getD_eq_getElem?_getD, List.getElem?_eq_getElem hb,
    List.getD_eq_getElem?_getD, List.getElem?_eq_getElem ha]
  rfl

/-!
## C1: `make_poe` follows the reference kernel-dressing algorithm
-/

/-- C1: `make_poe` computes its result by the reference algorithm of the
spec: the `x` grid `linspace(-4, 4, N)` with `N = 1000`; per member a
Gaussian kernel at every `x`, divided by the number of members; the
kernels summed into a mixture PDF; `poe = 1 - cumsum(pdf)/max(cumsum(pdf))`;
and for each requested percentile `p` the value of `poe` at the `x` index
nearest `Φ⁻¹(p/100)`. -/
theorem make_poe_follows_reference (normpdf : ℚ → ℚ → ℚ → ℚ) (normppf : ℚ → ℚ)
    (ensemble_array : List ℚ) (ptiles : List ℚ) (kernel_std : ℚ) :
    make_poe normpdf normppf ensemble_array ptiles kernel_std =
      reference_poe normpdf normppf ensemble_array ptiles kernel_std := by
  simp only [make_poe, reference_poe]
  generalize hX : linspace (-4 : ℚ) 4 1000 = X
  have hXlen : X.length = 1000 := by
    rw [← hX]
    exact length_linspace _ _ _
  rw [← hXlen]
  have hpdf : (List.range X.length).map
      (fun j => ((ensemble_array.map (fun e => X.map
        (fun xv => normpdf xv e kernel_std / (ensemble_array.length : ℚ)))).map
          (fun row => row.getD j 0)).sum) =
      (List.range X.length).map (fun j => (ensemble_array.map
        (fun member => normpdf (X.getD j 0) member kernel_std /
          (ensemble_array.length : ℚ))).sum) := by
    apply List.map_congr_left
    intro j hj
    rw [List.map_map]
    refine congrArg List.sum (List.map_congr_left ?_)
    intro e _
    exact getD_map_of_lt _ _ _ (List.mem_range.mp hj) 0 0
  rw [hpdf]
  have hfuse : ∀ (f : ℚ → ℚ) (g : ℚ → ℚ) (l : List ℚ),
      (l.map f).map g = l.map (fun p => g (f p)) := by
    intro f g l
    rw [List.map_map]
    rfl
  rw [hfuse]

/-!
## C2: shape behaviour of `make_poe` on 2-D ensembles
-/

/-- C2: the code cannot deliver the documented 2-D behaviour.  A 2-D
ensemble of shape `(2, 3)` (2 members, 3 locations, `member_axis = 0`)
raises in the kernel-broadcasting step, and even a shape the broadcasting
happens to accept, `(2, 1)`, produces a flat length-`num_ptiles` list
rather than an array of shape `(num_ptiles, num_locations)`. -/
theorem make_poe_shape_2d_fails :
    make_poe_shape [2, 3] 0 3 = none ∧
    make_poe_shape [2, 1] 0 3 = some [3] ∧ some [3] ≠ some [3, 1] := by
  refine ⟨rfl, rfl, by simp⟩

/-- The exact acceptance condition for 2-D input: a shape `(m, l)`
ensemble is accepted only when `l` accidentally broadcasts against the
1000-point grid (`l = 1` or `l = 1000`) and `member_axis` is in range,
and the result is always the flat shape `(num_ptiles,)`. -/
theorem make_poe_shape_2d_characterisation (m l member_axis num_ptiles : Nat) :
    make_poe_shape [m, l] member_axis num_ptiles =
      if member_axis < 2 ∧ (l = 1 ∨ l = 1000) then some [num_ptiles] else none := by
  unfold make_poe_shape broadcastShapes broadcastRev
  by_cases hma : member_axis < 2
  · by_cases h1 : l = 1
    · subst h1
      simp [hma, List.length_cons, broadcastRev, broadcastDim, Option.guard]
    · by_cases h2 : l = 1000
      · subst h2
        simp [hma, broadcastRev, broadcastDim, Option.guard]
      · simp only [List.length_cons, List.length_nil]
        rw [if_neg (by tauto)]
        simp only [List.reverse_cons, List.reverse_nil, List.nil_append,
          List.cons_append]
        simp [hma, broadcastRev, broadcastDim, h1, h2, Option.guard]
  · rw [if_neg (by tauto)]
    simp [Option.guard, hma, List.length_cons]

/-!
## C3, C4: `poe_to_terciles`
-/

/-- C3: with `33` and `67` in `ptiles`, `poe_to_terciles` returns
`below = 1 - poe[33's index]`, `above = poe[67's index]`, and
`near = 1 - below - above` with no clamping; consequently
`below + near + above = 1` at every location and `near < 0` exactly when
`below + above > 1`. -/
theorem poe_to_terciles_spec (poe : List (List ℚ)) (ptiles : List ℚ)
    (h33 : (33 : ℚ) ∈ ptiles) (h67 : (67 : ℚ) ∈ ptiles) :
    ∃ below near above,
      poe_to_terciles poe ptiles = .ok (below, near, above) ∧
      below = (poe.getD (ptiles.indexOf 33) []).map (fun q => 1 - q) ∧
      above = poe.getD (ptiles.indexOf 67) [] ∧
      (∀ loc, loc < near.length →
        near.getD loc 0 = 1 - below.getD loc 0 - above.getD loc 0) ∧
      (∀ loc, loc < near.length →
        below.getD loc 0 + near.getD loc 0 + above.getD loc 0 = 1) ∧
      (∀ loc, loc < near.length →
        (near.getD loc 0 < 0 ↔ 1 < below.getD loc 0 + above.getD loc 0)) := by
  have e33 : find_nearest_index ptiles 33 = ptiles.indexOf 33 :=
    fni_eq_indexOf _ _ h33
  have e67 : find_nearest_index ptiles 67 = ptiles.indexOf 67 :=
    fni_eq_indexOf _ _ h67
  refine ⟨(poe.getD (ptiles.indexOf 33) []).map (fun q => 1 - q),
    List.zipWith (fun b a => 1 - (b + a))
      ((poe.getD (ptiles.indexOf 33) []).map (fun q => 1 - q))
      (poe.getD (ptiles.indexOf 67) []),
    poe.getD (ptiles.indexOf 67) [], ?_, rfl, rfl, ?_, ?_, ?_⟩
  · unfold poe_to_terciles
    rw [if_neg (not_not_intro ⟨h33, h67⟩), e33, e67]
  · intro loc hloc
    rw [List.length_zipWith, lt_min_iff] at hloc
    rw [getD_zipWith_near _ _ loc hloc.1 hloc.2]
    ring
  · intro loc hloc
    rw [List.length_zipWith, lt_min_iff] at hloc
    rw [getD_zipWith_near _ _ loc hloc.1 hloc.2]
    ring
  · intro loc hloc
    rw [List.length_zipWith, lt_min_iff] at hloc
    rw [getD_zipWith_near _ _ loc hloc.1 hloc.2]
    constructor
    · intro hlt
      linarith
    · intro hlt
      linarith

/-- C4: `poe_to_terciles` raises exactly when `ptiles` lacks `33` or `67`
(an exact membership test), the error being produced by the validation
step before any tercile value is computed; in particular
`ptiles = [10, 50, 90]` raises. -/
theorem poe_to_terciles_error_iff :
    (∀ (poe : List (List ℚ)) (ptiles : List ℚ),
      isError (poe_to_terciles poe ptiles) = true ↔
        ¬ ((33 : ℚ) ∈ ptiles ∧ (67 : ℚ) ∈ ptiles)) ∧
    (∀ poe : List (List ℚ),
      poe_to_terciles poe [10, 50, 90] = .error "ptiles must contain 33 and 67") := by
  constructor
  · intro poe ptiles
    unfold poe_to_terciles
    by_cases h : ((33 : ℚ) ∈ ptiles ∧ (67 : ℚ) ∈ ptiles)
    · rw [if_neg (not_not_intro h)]
      simp [isError, h]
    · rw [if_pos h]
      simp [isError, h]
  · intro poe
    unfold poe_to_terciles
    rw [if_pos]
    norm_num

/-!
## C10: `Grid.__init__` with an unrecognised name
-/

/-- C10: an unrecognised grid name together with a complete truthy
`(ll_corner, ur_corner, res)` triple does not raise: it produces a grid
named `"custom"` (the supplied name is discarded) carrying the given
corners and resolution; and a `GridError` is raised during construction
exactly when no preset name matches and one of `ll_corner`, `ur_corner`,
`res` is missing or falsy (`None`, or `res = 0`). -/
theorem grid_init_spec :
    (∀ (name : String) (ll ur : ℚ × ℚ) (res : ℚ) (ty : String),
      name ∉ builtinGridNames → res ≠ 0 →
      grid_init (some name) (some ll) (some ur) (some res) ty =
        .ok ⟨"custom", ll, ur, res, ty⟩) ∧
    (∀ (name : Option String) (ll ur : Option (ℚ × ℚ)) (res : Option ℚ)
      (ty : String),
      isError (grid_init name ll ur res ty) = true ↔
        ((∀ s, name = some s → s ∉ builtinGridNames) ∧
         (ll = none ∨ ur = none ∨ res = none ∨ res = some 0))) := by
  constructor
  · intro name ll ur res ty hname hres
    simp only [builtinGridNames, List.mem_cons, List.not_mem_nil, or_false,
      not_or] at hname
    obtain ⟨h1, h2, h3, h4, h5, h6, h7, h8, h9, h10, h11, h12, h13⟩ := hname
    unfold grid_init
    rw [if_neg (by simp [h1, h2]), if_neg (by simp [h3, h4]),
      if_neg (by simp [h5, h6]), if_neg (by simp [h7, h8]),
      if_neg (by simp [h9, h10]), if_neg (by simp [h11, h12]),
      if_neg (by simp [h13]), if_neg (by simp [hres])]
    rfl
  · intro name ll ur res ty
    match name with
    | none =>
      by_cases hmiss : (ll = none ∨ ur = none ∨ res = none ∨ res = some 0)
      · simp [grid_init, isError, hmiss]
      · simp [grid_init, isError, hmiss]
    | some s =>
      by_cases hs : s ∈ builtinGridNames
      · simp only [builtinGridNames, List.mem_cons, List.not_mem_nil,
          or_false] at hs
        rcases hs with h | h | h | h | h | h | h | h | h | h | h | h | h <;>
          subst h <;> simp [grid_init, isError, builtinGridNames]
      · simp only [builtinGridNames, List.mem_cons, List.not_mem_nil, or_false,
          not_or] at hs
        obtain ⟨h1, h2, h3, h4, h5, h6, h7, h8, h9, h10, h11, h12, h13⟩ := hs
        by_cases hmiss : (ll = none ∨ ur = none ∨ res = none ∨ res = some 0)
        · simp [grid_init, isError, hmiss, builtinGridNames,
            h1, h2, h3, h4, h5, h6, h7, h8, h9, h10, h11, h12, h13]
        · simp [grid_init, isError, hmiss, builtinGridNames,
            h1, h2, h3, h4, h5, h6, h7, h8, h9, h10, h11, h12, h13]

/-- Witness for C10 at a concrete unrecognised name and a complete custom
specification. -/
theorem grid_init_spec_witness :
    grid_init (some "bogus-grid") (some (0, 0)) (some (10, 10)) (some 1)
      "latlon" = .ok ⟨"custom", (0, 0), (10, 10), 1, "latlon"⟩ :=
  grid_init_spec.1 "bogus-grid" (0, 0) (10, 10) 1 "latlon" (by decide)
    (by norm_num)

/-!
## Lemmas on `values_to_ptiles`
-/

/-- On validated input with a nonempty reference-percentile vector,
`values_to_ptiles` succeeds with the per-location comprehension. -/
theorem values_to_ptiles_ok (array : List RVal) (climo : List (List RVal))
    (ref : List ℚ) (k : ℚ)
    (hlen : array.length = climo.length)
    (hcols : ∀ col ∈ climo, col.length = ref.length)
    (hpos : 0 < ref.length) :
    values_to_ptiles array climo ref k =
      .ok (array.enum.map (fun p => ptileOfObs (climo.getD p.1 []) ref k p.2)) := by
  unfold values_to_ptiles
  rw [if_neg (by omega), if_neg (by
      simp only [not_not, List.all_eq_true, decide_eq_true_eq]
      exact hcols),
    if_neg (by
      rintro ⟨h0, -⟩
      omega)]

/-- The comprehension acts per location: entry `i` of the output depends
only on `array[i]` and the climatology column `i`. -/
theorem values_to_ptiles_getD (array : List RVal) (climo : List (List RVal))
    (ref : List ℚ) (k : ℚ) (i : Nat) (hi : i < array.length) :
    (array.enum.map
      (fun p => ptileOfObs (climo.getD p.1 []) ref k p.2)).getD i RVal.nan =
      ptileOfObs (climo.getD i []) ref k (array.getD i RVal.nan) := by
  have h1 : (array.enum.map
      (fun p => ptileOfObs (climo.getD p.1 []) ref k p.2))[i]? =
      some (ptileOfObs (climo.getD i []) ref k (array.get ⟨i, hi⟩)) := by
    rw [List.getElem?_map]
    unfold List.enum
    rw [List.getElem?_enumFrom, List.getElem?_eq_getElem hi]
    simp
  rw [List.getD_eq_getElem?_getD, h1]
  rw [List.getD_eq_getElem?_getD array i RVal.nan, List.getElem?_eq_getElem hi]
  rfl

/-- A NaN observation yields NaN (branch 1 of the chain). -/
theorem ptileOfObs_nan (c : List RVal) (ref : List ℚ) (k : ℚ) :
    ptileOfObs c ref k RVal.nan = RVal.nan := by
  simp [ptileOfObs]

/-- `getD` of a list all of whose members are NaN. -/
theorem getD_of_all_nan (col : List RVal) (hc : ∀ x ∈ col, x = RVal.nan)
    (j : Nat) : col.getD j RVal.nan = RVal.nan := by
  rw [List.getD_eq_getElem?_getD]
  cases h : col[j]? with
  | none => rfl
  | some x =>
    obtain ⟨hlt, hx⟩ := List.getElem?_eq_some_iff.mp h
    have hmem : x ∈ col := hx ▸ List.getElem_mem hlt
    simp [hc x hmem]

/-- A column that is entirely NaN matches no branch: the chain falls
through to NaN for any non-NaN observation. -/
theorem ptileOfObs_all_nan_col (c : List RVal) (ref : List ℚ) (k : ℚ)
    (v : ℚ) (hc : ∀ x ∈ c, x = RVal.nan) :
    ptileOfObs c ref k (RVal.val v) = RVal.nan := by
  have hcontains : c.contains (RVal.val v) = false := by
    rw [List.contains_eq_any_beq]
    rw [List.any_eq_false]
    intro x hx
    rw [hc x hx]
    simp
  have h0 : c.getD 0 RVal.nan = RVal.nan := getD_of_all_nan c hc 0
  have hlast : c.getD (ref.length - 1) RVal.nan = RVal.nan := getD_of_all_nan c hc _
  have hmid : c.getD (pMid ref c.length) RVal.nan = RVal.nan := getD_of_all_nan c hc _
  simp only [ptileOfObs, hcontains, h0, hlast, hmid]
  simp

/-!
## C8: NaN propagation and per-location independence
-/

/-- C8 counterexample: an input that passes both dimension checks (2
observations, 2 climatology columns of 0 rows, 0 reference percentiles)
with a NaN at location 0, on which the source raises
(`climo[len(ref_ptiles)-1, loc]` indexes row `-1` of a zero-row array at
the non-NaN location, the bare `except` re-raises) instead of returning
NaN per location. -/
theorem values_to_ptiles_nan_cex :
    ([RVal.nan, RVal.val 1].length = ([[], []] : List (List RVal)).length) ∧
    (∀ col ∈ ([[], []] : List (List RVal)), col.length = ([] : List ℚ).length) ∧
    values_to_ptiles [RVal.nan, RVal.val 1] [[], []] [] 1 =
      .error "Percentile calculation failed." := by
  refine ⟨rfl, by simp, by rfl⟩

/-- C8 amended: provided at least one reference percentile exists, a
dimension-validated call returns `.ok`; entry `i` of the output is a
function of `array[i]` and climatology column `i` alone (per-location
independence); a NaN observation yields NaN; and a location whose
climatology column is entirely NaN (so no branch can match) yields NaN
rather than raising. -/
theorem values_to_ptiles_nan_amended (array : List RVal)
    (climo : List (List RVal)) (ref : List ℚ) (k : ℚ)
    (hlen : array.length = climo.length)
    (hcols : ∀ col ∈ climo, col.length = ref.length)
    (hpos : 0 < ref.length) :
    ∃ out, values_to_ptiles array climo ref k = .ok out ∧
      out.length = array.length ∧
      (∀ i, i < array.length →
        out.getD i RVal.nan =
          ptileOfObs (climo.getD i []) ref k (array.getD i RVal.nan)) ∧
      (∀ i, i < array.length → array.getD i RVal.nan = RVal.nan →
        out.getD i RVal.nan = RVal.nan) ∧
      (∀ i v, i < array.length → array.getD i RVal.nan = RVal.val v →
        (∀ x ∈ climo.getD i [], x = RVal.nan) →
        out.getD i RVal.nan = RVal.nan) := by
  refine ⟨_, values_to_ptiles_ok array climo ref k hlen hcols hpos, ?_, ?_, ?_, ?_⟩
  · rw [List.length_map]
    unfold List.enum
    exact List.enumFrom_length
  · intro i hi
    exact values_to_ptiles_getD array climo ref k i hi
  · intro i hi hnan
    rw [values_to_ptiles_getD array climo ref k i hi, hnan]
    exact ptileOfObs_nan _ _ _
  · intro i v hi hv hcol
    rw [values_to_ptiles_getD array climo ref k i hi, hv]
    exact ptileOfObs_all_nan_col _ _ _ _ hcol

/-- Witness for the amended C8 at a concrete input: a NaN observation at
location 0 and an all-NaN climatology column at location 1. -/
theorem values_to_ptiles_nan_amended_witness :
    ∃ out, values_to_ptiles [RVal.nan, RVal.val 7]
        [[RVal.val 1], [RVal.nan]] [1/2] 1 = .ok out ∧
      out.length = 2 ∧ out.getD 0 RVal.nan = RVal.nan ∧
      out.getD 1 RVal.nan = RVal.nan := by
  obtain ⟨out, hok, hlen2, -, hnan, hcol⟩ :=
    values_to_ptiles_nan_amended [RVal.nan, RVal.val 7]
      [[RVal.val 1], [RVal.nan]] [1/2] 1 (by decide) (by simp) (by decide)
  refine ⟨out, hok, hlen2, hnan 0 (by decide) (by decide), ?_⟩
  refine hcol 1 7 (by decide) (by decide) ?_
  rw [show ([[RVal.val 1], [RVal.nan]] : List (List RVal)).getD 1 [] =
    [RVal.nan] from rfl]
  simp

/-!
## C6: exactness at knots
-/

/-- Branch 2 of the chain: an observation that exactly equals a
climatology value yields the reference percentile of the *first* matching
row. -/
theorem ptileOfObs_knot (col : List RVal) (ref : List ℚ) (k : ℚ) (v : ℚ)
    (j : Nat) (hj : col.getD j RVal.nan = RVal.val v)
    (hfirst : ∀ j2, j2 < j → col.getD j2 RVal.nan ≠ RVal.val v) :
    ptileOfObs col ref k (RVal.val v) = RVal.val (ref.getD j 0) := by
  have hjlt : j < col.length := by
    by_contra h
    push_neg at h
    rw [List.getD_eq_getElem?_getD, List.getElem?_eq_none h] at hj
    simp at hj
  have hgetj : col[j] = RVal.val v := by
    rw [List.getD_eq_getElem?_getD, List.getElem?_eq_getElem hjlt] at hj
    simpa using hj
  have hcontains : col.contains (RVal.val v) = true := by
    rw [List.contains_eq_any_beq, List.any_eq_true]
    exact ⟨RVal.val v, hgetj ▸ List.getElem_mem hjlt, by simp⟩
  have hfind : col.findIdx (fun y => y == RVal.val v) = j := by
    rw [List.findIdx_eq hjlt]
    constructor
    · rw [hgetj]
      simp
    · intro j2 hj2
      have hne := hfirst j2 hj2
      rw [List.getD_eq_getElem?_getD,
        List.getElem?_eq_getElem (Nat.lt_trans hj2 hjlt)] at hne
      simp only [Option.getD_some] at hne
      have hj2lt : j2 < col.length := Nat.lt_trans hj2 hjlt
      cases hcc : col[j2] with
      | nan => simp
      | val a =>
        rw [hcc] at hne
        have : a ≠ v := fun h => hne (by rw [h])
        simp [this]
  simp only [ptileOfObs]
  rw [if_neg (by simp), if_pos hcontains, hfind]

/-- C6 counterexample: with the climatology column `[5, 5]` and reference
percentiles `[0.1, 0.9]`, the value `5` equals `climo[1, 0]`, yet the
result is `0.1` (`ref[0]`, the first matching row), not `ref[1] = 0.9` as
the claim demands for `j = 1`. -/
theorem values_to_ptiles_knot_cex :
    (([[RVal.val 5, RVal.val 5]] : List (List RVal)).getD 0 []).getD 1 RVal.nan
      = RVal.val 5 ∧
    values_to_ptiles [RVal.val 5] [[RVal.val 5, RVal.val 5]] [1/10, 9/10] 1 =
      .ok [RVal.val (1/10)] ∧
    RVal.val ((1 : ℚ)/10) ≠ RVal.val (9/10) := by
  refine ⟨rfl, by rfl, by with_unfolding_all decide⟩

/-- C6 amended: if `values[i]` is non-NaN and equals `climo[j, i]`, and
`j` is the *least* such row index, then the result at `i` is exactly
`reference_percentiles[j]`. -/
theorem values_to_ptiles_knot_amended (array : List RVal)
    (climo : List (List RVal)) (ref : List ℚ) (k : ℚ) (i j : Nat) (v : ℚ)
    (hlen : array.length = climo.length)
    (hcols : ∀ col ∈ climo, col.length = ref.length)
    (hi : i < array.length)
    (hv : array.getD i RVal.nan = RVal.val v)
    (hj : (climo.getD i []).getD j RVal.nan = RVal.val v)
    (hfirst : ∀ j2, j2 < j → (climo.getD i []).getD j2 RVal.nan ≠ RVal.val v) :
    ∃ out, values_to_ptiles array climo ref k = .ok out ∧
      out.getD i RVal.nan = RVal.val (ref.getD j 0) := by
  have hjlt : j < (climo.getD i []).length := by
    by_contra h
    push_neg at h
    rw [List.getD_eq_getElem?_getD, List.getElem?_eq_none h] at hj
    simp at hj
  have hcollen : (climo.getD i []).length = ref.length := by
    apply hcols
    rw [List.getD_eq_getElem?_getD,
      List.getElem?_eq_getElem (by omega : i < climo.length)]
    exact List.getElem_mem _
  have hpos : 0 < ref.length := by omega
  refine ⟨_, values_to_ptiles_ok array climo ref k hlen hcols hpos, ?_⟩
  rw [values_to_ptiles_getD array climo ref k i hi, hv]
  exact ptileOfObs_knot _ _ _ _ j hj hfirst

/-- Witness for the amended C6: value `7` equals row 1 of the column
`[5, 7]`, and the result is `ref[1] = 0.9`. -/
theorem values_to_ptiles_knot_amended_witness :
    ∃ out, values_to_ptiles [RVal.val 7] [[RVal.val 5, RVal.val 7]]
        [1/10, 9/10] 1 = .ok out ∧
      out.getD 0 RVal.nan = RVal.val (9/10) := by
  obtain ⟨out, hok, hval⟩ :=
    values_to_ptiles_knot_amended [RVal.val 7] [[RVal.val 5, RVal.val 7]]
      [1/10, 9/10] 1 0 1 7 (by decide) (by simp) (by decide) (by decide)
      (by decide) (by decide)
  exact ⟨out, hok, hval⟩

/-!
## Reduction of the chain on NaN-free columns to rational arithmetic
-/

theorem getD_eq_getElem_of_lt (l : List α) (d : α) (j : Nat)
    (h : j < l.length) : l.getD j d = l[j] := by
  rw [List.getD_eq_getElem?_getD, List.getElem?_eq_getElem h]
  rfl

theorem bisectGo_le (lt : α → α → Bool) (a : List α) (x : α) :
    ∀ fuel lo hi, lo ≤ hi → bisectGo lt a x fuel lo hi ≤ hi := by
  intro fuel
  induction fuel with
  | zero => intro lo hi h; exact h
  | succ n ih =>
    intro lo hi h
    by_cases hlt : lo < hi
    · simp only [bisectGo, hlt, if_true]
      by_cases hc : lt x (a.getD ((lo + hi) / 2) x) = true
      · rw [if_pos hc]
        exact le_trans (ih lo ((lo + hi) / 2) (by omega)) (by omega)
      · rw [if_neg hc]
        exact ih ((lo + hi) / 2 + 1) hi (by omega)
    · simp only [bisectGo, hlt, if_false]
      exact h

theorem bisect_le_length (lt : α → α → Bool) (a : List α) (x : α) :
    bisect lt a x ≤ a.length :=
  bisectGo_le lt a x (a.length + 1) 0 a.length (Nat.zero_le _)

theorem pMid_lt (ref : List ℚ) (clen : Nat) (h : 0 < clen)
    (h2 : ref.length ≤ clen) : pMid ref clen < clen := by
  unfold pMid
  have := bisect_le_length qlt ref (1/2)
  by_cases hb : bisect qlt ref (1/2) = 0
  · rw [if_pos hb]; omega
  · rw [if_neg hb]; omega

/-- Sorted (non-decreasing) access through `getD`. -/
theorem chain'_le_getD (cq : List ℚ) (hs : cq.Chain' (· ≤ ·)) :
    ∀ i j, i ≤ j → j < cq.length → cq.getD i 0 ≤ cq.getD j 0 := by
  rw [List.chain'_iff_pairwise] at hs
  intro i j hij hj
  rcases Nat.eq_or_lt_of_le hij with rfl | hlt
  · exact le_refl _
  · rw [getD_eq_getElem_of_lt _ _ i (by omega), getD_eq_getElem_of_lt _ _ j hj]
    exact List.pairwise_iff_getElem.mp hs i j (by omega) hj hlt

/-- Strictly sorted access through `getD`. -/
theorem chain'_lt_getD (rq : List ℚ) (hs : rq.Chain' (· < ·)) :
    ∀ i j, i < j → j < rq.length → rq.getD i 0 < rq.getD j 0 := by
  rw [List.chain'_iff_pairwise] at hs
  intro i j hij hj
  rw [getD_eq_getElem_of_lt _ _ i (by omega), getD_eq_getElem_of_lt _ _ j hj]
  exact List.pairwise_iff_getElem.mp hs i j (by omega) hj hij

/-- `contains` on a rational list through membership. -/
theorem contains_eq_true_iff (cq : List ℚ) (v : ℚ) :
    cq.contains v = true ↔ v ∈ cq := by
  rw [List.contains_eq_any_beq, List.any_eq_true]
  constructor
  · rintro ⟨x, hx, hbeq⟩
    rw [beq_iff_eq] at hbeq
    rw [hbeq]
    exact hx
  · intro h
    exact ⟨v, h, by simp⟩

theorem contains_map_val (cq : List ℚ) (v : ℚ) :
    (cq.map RVal.val).contains (RVal.val v) = cq.contains v := by
  rw [List.contains_eq_any_beq, List.contains_eq_any_beq]
  induction cq with
  | nil => rfl
  | cons a tl ih =>
    rw [List.map_cons, List.any_cons, List.any_cons, ih]
    rfl

theorem findIdx_map_val (cq : List ℚ) (v : ℚ) :
    (cq.map RVal.val).findIdx (fun y => y == RVal.val v) =
      cq.findIdx (fun y => y == v) := by
  induction cq with
  | nil => rfl
  | cons a tl ih =>
    rw [List.map_cons, List.findIdx_cons, List.findIdx_cons]
    have : (RVal.val a == RVal.val v) = (a == v) := rfl
    rw [this, ih]

theorem bisectGo_map_val (cq : List ℚ) (v : ℚ) :
    ∀ fuel lo hi, hi ≤ cq.length →
      bisectGo RVal.lt (cq.map RVal.val) (RVal.val v) fuel lo hi =
        bisectGo qlt cq v fuel lo hi := by
  intro fuel
  induction fuel with
  | zero => intro lo hi _; rfl
  | succ n ih =>
    intro lo hi hhi
    by_cases hlt : lo < hi
    · simp only [bisectGo, hlt, if_true]
      have hmid : (lo + hi) / 2 < cq.length := by omega
      have e : (cq.map RVal.val).getD ((lo + hi) / 2) (RVal.val v) =
          RVal.val (cq.getD ((lo + hi) / 2) v) :=
        getD_map_of_lt _ _ _ hmid v (RVal.val v)
      rw [e]
      have e2 : RVal.lt (RVal.val v) (RVal.val (cq.getD ((lo + hi) / 2) v)) =
          qlt v (cq.getD ((lo + hi) / 2) v) := rfl
      rw [e2]
      by_cases hc : qlt v (cq.getD ((lo + hi) / 2) v) = true
      · rw [if_pos hc, if_pos hc]
        exact ih lo ((lo + hi) / 2) (by omega)
      · rw [if_neg hc, if_neg hc]
        exact ih ((lo + hi) / 2 + 1) hi hhi
    · simp only [bisectGo, hlt, if_false]

theorem bisect_map_val (cq : List ℚ) (v : ℚ) :
    bisect RVal.lt (cq.map RVal.val) (RVal.val v) = bisect qlt cq v := by
  unfold bisect
  rw [List.length_map]
  exact bisectGo_map_val cq v (cq.length + 1) 0 cq.length (le_refl _)

/-- Bracketing property of `bisect` on a sorted column for an interior
value that matches no knot. -/
theorem bisect_bracket (cq : List ℚ) (v : ℚ) (hsort : cq.Chain' (· ≤ ·))
    (hne : v ∉ cq) (hpos : 0 < cq.length)
    (hc0 : cq.getD 0 0 < v) (hcl : v < cq.getD (cq.length - 1) 0) :
    1 ≤ bisect qlt cq v ∧ bisect qlt cq v < cq.length ∧
    cq.getD (bisect qlt cq v - 1) 0 < v ∧
    v < cq.getD (bisect qlt cq v) 0 := by
  have hmono : ∀ i j, i ≤ j → j < cq.length →
      qlt v (cq.getD i v) = true → qlt v (cq.getD j v) = true := by
    intro i j hij hj hq
    unfold qlt at hq ⊢
    rw [decide_eq_true_eq] at hq
    rw [decide_eq_true_eq]
    have hle := chain'_le_getD cq hsort i j hij hj
    rw [getD_eq_getElem_of_lt _ _ i (by omega),
      getD_eq_getElem_of_lt _ _ j hj] at hle
    rw [getD_eq_getElem_of_lt _ _ i (by omega)] at hq
    rw [getD_eq_getElem_of_lt _ _ j hj]
    exact lt_of_lt_of_le hq hle
  obtain ⟨hlen, hpre, hpost⟩ := bisect_spec qlt cq v hmono
  set i := bisect qlt cq v with hidef
  have h1 : 1 ≤ i := by
    by_contra h
    push_neg at h
    have := hpost 0 (by omega) hpos
    unfold qlt at this
    rw [decide_eq_true_eq, getD_eq_getElem_of_lt _ _ 0 hpos] at this
    rw [getD_eq_getElem_of_lt _ _ 0 hpos] at hc0
    exact absurd this (not_lt.mpr (le_of_lt hc0))
  have h2 : i < cq.length := by
    by_contra h
    push_neg at h
    have hthis := hpre (cq.length - 1) (by omega)
    unfold qlt at hthis
    rw [decide_eq_false_iff_not] at hthis
    rw [getD_eq_getElem_of_lt _ _ (cq.length - 1) (by omega)] at hthis
    rw [getD_eq_getElem_of_lt _ _ (cq.length - 1) (by omega)] at hcl
    exact hthis hcl
  have h4 : v < cq.getD i 0 := by
    have := hpost i (le_refl _) h2
    unfold qlt at this
    rw [decide_eq_true_eq] at this
    rw [getD_eq_getElem_of_lt _ _ i h2] at this ⊢
    exact this
  have h3 : cq.getD (i - 1) 0 < v := by
    have hthis := hpre (i - 1) (by omega)
    unfold qlt at hthis
    rw [decide_eq_false_iff_not] at hthis
    push_neg at hthis
    rw [getD_eq_getElem_of_lt _ _ (i - 1) (by omega)] at hthis
    rw [getD_eq_getElem_of_lt _ _ (i - 1) (by omega)]
    rcases lt_or_eq_of_le hthis with hlt2 | heq
    · exact hlt2
    · exact absurd (heq ▸ List.getElem_mem (by omega : i - 1 < cq.length)) hne
  exact ⟨h1, h2, h3, h4⟩

/-- The conditional-expression chain of `values_to_ptiles` specialised to
a NaN-free (all-rational) climatology column and a non-NaN observation;
related to `ptileOfObs` by `ptileOfObs_map_val`.  A zero interpolation
denominator yields NaN exactly as the NaN-propagating arithmetic of
`ptileOfObs` does. -/
def ptileOfObsQ (cq ref : List ℚ) (k v : ℚ) : RVal :=
  let lastIdx := ref.length - 1
  let cmid := cq.getD (pMid ref cq.length) 0
  let clast := cq.getD lastIdx 0
  let c0 := cq.getD 0 0
  let p100 := k * (clast - cmid) + cmid
  let p0 := k * (c0 - cmid) + cmid
  if cq.contains v then .val (ref.getD (cq.findIdx (fun y => y == v)) 0)
  else if p100 ≤ v then .val 1
  else if clast < v ∧ v < p100 then
    if p100 - clast = 0 then .nan
    else .val (ref.getD lastIdx 0 +
      (v - clast) / (p100 - clast) * (1 - ref.getD lastIdx 0))
  else if v ≤ p0 then .val 0
  else if v < c0 ∧ p0 < v then
    if p0 - c0 = 0 then .nan
    else .val (ref.getD 0 0 + (v - c0) / (p0 - c0) * (0 - ref.getD 0 0))
  else if c0 < v ∧ v < clast then
    let i := bisect qlt cq v
    if cq.getD i 0 - cq.getD (i - 1) 0 = 0 then .nan
    else .val (ref.getD (i - 1) 0 +
      (ref.getD i 0 - ref.getD (i - 1) 0) *
        ((v - cq.getD (i - 1) 0) / (cq.getD i 0 - cq.getD (i - 1) 0)))
  else .nan

theorem ptileOfObs_map_val (cq ref : List ℚ) (k v : ℚ)
    (hlen : cq.length = ref.length) (hpos : 0 < ref.length)
    (hsort : cq.Chain' (· ≤ ·)) :
    ptileOfObs (cq.map RVal.val) ref k (RVal.val v) =
      ptileOfObsQ cq ref k v := by
  have hcq : 0 < cq.length := by omega
  have hlastlt : ref.length - 1 < cq.length := by omega
  have hmidlt : pMid ref cq.length < cq.length :=
    pMid_lt ref cq.length hcq (by omega)
  have e0 : (cq.map RVal.val).getD 0 RVal.nan = RVal.val (cq.getD 0 0) :=
    getD_map_of_lt _ _ _ hcq 0 RVal.nan
  have eLast : (cq.map RVal.val).getD (ref.length - 1) RVal.nan =
      RVal.val (cq.getD (ref.length - 1) 0) :=
    getD_map_of_lt _ _ _ hlastlt 0 RVal.nan
  have eMid : (cq.map RVal.val).getD (pMid ref (cq.map RVal.val).length)
      RVal.nan = RVal.val (cq.getD (pMid ref cq.length) 0) := by
    rw [List.length_map]
    exact getD_map_of_lt _ _ _ hmidlt 0 RVal.nan
  simp only [ptileOfObs, ptileOfObsQ]
  rw [eMid, eLast, e0, contains_map_val, findIdx_map_val, bisect_map_val]
  simp only [RVal.isNan_val, Bool.false_eq_true, if_false,
    RVal.val_sub, RVal.val_mul, RVal.val_add, RVal.le_val_val,
    RVal.lt_val_val, Bool.and_eq_true, decide_eq_true_eq]
  by_cases h1 : cq.contains v = true
  · rw [if_pos h1, if_pos h1]
  · rw [if_neg h1, if_neg h1]
    by_cases h2 : k * (cq.getD (ref.length - 1) 0 -
        cq.getD (pMid ref cq.length) 0) + cq.getD (pMid ref cq.length) 0 ≤ v
    · rw [if_pos h2, if_pos h2]
    · rw [if_neg h2, if_neg h2]
      by_cases h3 : cq.getD (ref.length - 1) 0 < v ∧
          v < k * (cq.getD (ref.length - 1) 0 - cq.getD (pMid ref cq.length) 0) +
            cq.getD (pMid ref cq.length) 0
      · rw [if_pos h3, if_pos h3]
        rw [RVal.val_div]
        by_cases hden : k * (cq.getD (ref.length - 1) 0 -
            cq.getD (pMid ref cq.length) 0) + cq.getD (pMid ref cq.length) 0 -
            cq.getD (ref.length - 1) 0 = 0
        · rw [if_pos hden, if_pos hden]
          simp
        · rw [if_neg hden, if_neg hden]
          simp
      · rw [if_neg h3, if_neg h3]
        by_cases h4 : v ≤ k * (cq.getD 0 0 - cq.getD (pMid ref cq.length) 0) +
            cq.getD (pMid ref cq.length) 0
        · rw [if_pos h4, if_pos h4]
        · rw [if_neg h4, if_neg h4]
          by_cases h5 : v < cq.getD 0 0 ∧
              k * (cq.getD 0 0 - cq.getD (pMid ref cq.length) 0) +
                cq.getD (pMid ref cq.length) 0 < v
          · rw [if_pos h5, if_pos h5]
            rw [RVal.val_div]
            by_cases hden : k * (cq.getD 0 0 - cq.getD (pMid ref cq.length) 0) +
                cq.getD (pMid ref cq.length) 0 - cq.getD 0 0 = 0
            · rw [if_pos hden, if_pos hden]
              simp
            · rw [if_neg hden, if_neg hden]
              simp
          · rw [if_neg h5, if_neg h5]
            by_cases h6 : cq.getD 0 0 < v ∧ v < cq.getD (ref.length - 1) 0
            · rw [if_pos h6, if_pos h6]
              have hvnot : v ∉ cq := by
                intro hmem
                exact h1 ((contains_eq_true_iff cq v).mpr hmem)
              have hbr := bisect_bracket cq v hsort hvnot hcq
                (by exact h6.1)
                (by
                  have : cq.length - 1 = ref.length - 1 := by omega
                  rw [this]
                  exact h6.2)
              have ei : (cq.map RVal.val).getD (bisect qlt cq v) RVal.nan =
                  RVal.val (cq.getD (bisect qlt cq v) 0) :=
                getD_map_of_lt _ _ _ hbr.2.1 0 RVal.nan
              have eim1 : (cq.map RVal.val).getD (bisect qlt cq v - 1)
                  RVal.nan = RVal.val (cq.getD (bisect qlt cq v - 1) 0) :=
                getD_map_of_lt _ _ _ (by omega) 0 RVal.nan
              rw [ei, eim1]
              have hden : cq.getD (bisect qlt cq v) 0 -
                  cq.getD (bisect qlt cq v - 1) 0 ≠ 0 := by
                have := hbr.2.2.1
                have := hbr.2.2.2
                intro hz
                nlinarith [hbr.2.2.1, hbr.2.2.2]
              rw [RVal.val_sub, RVal.val_sub, RVal.val_div, if_neg hden,
                if_neg hden]
              simp
            · rw [if_neg h6, if_neg h6]

/-!
## C7: saturation at the extrapolated bounds
-/

/-- Branch 3: any non-matching observation at or above the extrapolated
100th-percentile threshold maps to exactly 1. -/
theorem ptileOfObsQ_high (cq ref : List ℚ) (k v : ℚ) (hnot : v ∉ cq)
    (hge : k * (cq.getD (ref.length - 1) 0 - cq.getD (pMid ref cq.length) 0) +
      cq.getD (pMid ref cq.length) 0 ≤ v) :
    ptileOfObsQ cq ref k v = RVal.val 1 := by
  have h1 : ¬ (cq.contains v = true) := fun h =>
    hnot ((contains_eq_true_iff cq v).mp h)
  simp only [ptileOfObsQ]
  rw [if_neg h1, if_pos hge]

/-- Branch 5: on a sorted column with `k > 0`, any non-matching
observation at or below the extrapolated 0th-percentile threshold maps to
exactly 0. -/
theorem ptileOfObsQ_low (cq ref : List ℚ) (k v : ℚ)
    (hlen : cq.length = ref.length) (hpos : 0 < ref.length)
    (hsort : cq.Chain' (· ≤ ·)) (hk : 0 < k) (hnot : v ∉ cq)
    (hle : v ≤ k * (cq.getD 0 0 - cq.getD (pMid ref cq.length) 0) +
      cq.getD (pMid ref cq.length) 0) :
    ptileOfObsQ cq ref k v = RVal.val 0 := by
  have hcq : 0 < cq.length := by omega
  have hmidlt : pMid ref cq.length < cq.length :=
    pMid_lt ref cq.length hcq (by omega)
  have hc0m : cq.getD 0 0 ≤ cq.getD (pMid ref cq.length) 0 :=
    chain'_le_getD cq hsort 0 (pMid ref cq.length) (Nat.zero_le _) hmidlt
  have hmcl : cq.getD (pMid ref cq.length) 0 ≤ cq.getD (ref.length - 1) 0 := by
    by_cases h : pMid ref cq.length ≤ ref.length - 1
    · exact chain'_le_getD cq hsort _ _ h (by omega)
    · omega
  have h1 : ¬ (cq.contains v = true) := fun h =>
    hnot ((contains_eq_true_iff cq v).mp h)
  have hp0m : k * (cq.getD 0 0 - cq.getD (pMid ref cq.length) 0) +
      cq.getD (pMid ref cq.length) 0 ≤ cq.getD (pMid ref cq.length) 0 := by
    nlinarith
  have hmp100 : cq.getD (pMid ref cq.length) 0 ≤
      k * (cq.getD (ref.length - 1) 0 - cq.getD (pMid ref cq.length) 0) +
        cq.getD (pMid ref cq.length) 0 := by
    nlinarith
  simp only [ptileOfObsQ]
  rw [if_neg h1]
  rw [if_neg (by
    intro habs
    have h_vcm : v = cq.getD (pMid ref cq.length) 0 :=
      le_antisymm (le_trans hle hp0m) (le_trans hmp100 habs)
    have h_cmp0 : cq.getD (pMid ref cq.length) 0 ≤
        k * (cq.getD 0 0 - cq.getD (pMid ref cq.length) 0) +
          cq.getD (pMid ref cq.length) 0 := h_vcm ▸ hle
    have h_zero : k * (cq.getD 0 0 - cq.getD (pMid ref cq.length) 0) = 0 := by
      linarith
    have h_c0cm : cq.getD 0 0 - cq.getD (pMid ref cq.length) 0 = 0 := by
      rcases mul_eq_zero.mp h_zero with h | h
      · exact absurd h (ne_of_gt hk)
      · exact h
    have h_vc0 : v = cq.getD 0 0 := by linarith
    have hmem : cq.getD 0 0 ∈ cq := by
      rw [getD_eq_getElem_of_lt cq 0 0 hcq]
      exact List.getElem_mem hcq
    exact hnot (h_vc0 ▸ hmem))]
  rw [if_neg (by
    rintro ⟨hclv, -⟩
    linarith)]
  rw [if_pos hle]

/-- C7 counterexample: the claim's "index of the reference percentile
nearest 0.50" disagrees with the code's `bisect(ref, 0.50) - 1` (last
percentile `≤ 0.50`).  With `ref = [0.1, 0.2, 0.55, 0.9]` the nearest
index is 2 but the code uses index 1, so for `climo column [0, 10, 20,
30]`, `k = 2`, `v = 45` (which is `≥` the claim's `p100 = 40` and matches
no row) the code returns `0.975`, not `1.0`. -/
theorem values_to_ptiles_saturation_cex :
    find_nearest_index [1/10, 2/10, 55/100, 9/10] (1/2) = 2 ∧
    ¬ (45 : ℚ) ∈ [(0 : ℚ), 10, 20, 30] ∧
    (2 * ((30 : ℚ) - [(0 : ℚ), 10, 20, 30].getD 2 0) +
      [(0 : ℚ), 10, 20, 30].getD 2 0 ≤ 45) ∧
    values_to_ptiles [RVal.val 45]
      [[RVal.val 0, RVal.val 10, RVal.val 20, RVal.val 30]]
      [1/10, 2/10, 55/100, 9/10] 2 = .ok [RVal.val (39/40)] ∧
    RVal.val ((39 : ℚ)/40) ≠ RVal.val 1 := by
  refine ⟨by with_unfolding_all decide, by with_unfolding_all decide,
    by norm_num, by with_unfolding_all rfl, by with_unfolding_all decide⟩

/-- C7 amended: saturation holds with the code's `mid` index — the last
reference percentile `≤ 0.50` (`bisect(ref, 0.50) - 1`, wrapping to the
final row when all reference percentiles exceed 0.50) — on a
non-decreasing climatology column with `k > 0`: a non-NaN value matching
no climatology row maps to exactly 1.0 at or above
`p100 = k*(climo[last] - climo[mid]) + climo[mid]` and to exactly 0.0 at
or below `p0 = k*(climo[0] - climo[mid]) + climo[mid]`. -/
theorem values_to_ptiles_saturation_amended (array : List RVal)
    (climo : List (List RVal)) (ref : List ℚ) (k : ℚ) (i : Nat)
    (cq : List ℚ) (v : ℚ)
    (hlen : array.length = climo.length)
    (hcols : ∀ col ∈ climo, col.length = ref.length)
    (hi : i < array.length)
    (hcol : climo.getD i [] = cq.map RVal.val)
    (hsort : cq.Chain' (· ≤ ·))
    (hk : 0 < k)
    (hpos : 0 < ref.length)
    (hv : array.getD i RVal.nan = RVal.val v)
    (hnot : v ∉ cq) :
    ∃ out, values_to_ptiles array climo ref k = .ok out ∧
      (k * (cq.getD (ref.length - 1) 0 - cq.getD (pMid ref cq.length) 0) +
          cq.getD (pMid ref cq.length) 0 ≤ v →
        out.getD i RVal.nan = RVal.val 1) ∧
      (v ≤ k * (cq.getD 0 0 - cq.getD (pMid ref cq.length) 0) +
          cq.getD (pMid ref cq.length) 0 →
        out.getD i RVal.nan = RVal.val 0) := by
  have hcqlen : cq.length = ref.length := by
    have hmem : climo.getD i [] ∈ climo := by
      rw [getD_eq_getElem_of_lt climo [] i (by omega)]
      exact List.getElem_mem _
    have := hcols _ hmem
    rw [hcol, List.length_map] at this
    exact this
  refine ⟨_, values_to_ptiles_ok array climo ref k hlen hcols hpos, ?_, ?_⟩
  · intro hge
    rw [values_to_ptiles_getD array climo ref k i hi, hv, hcol,
      ptileOfObs_map_val cq ref k v hcqlen hpos hsort]
    exact ptileOfObsQ_high cq ref k v hnot hge
  · intro hle
    rw [values_to_ptiles_getD array climo ref k i hi, hv, hcol,
      ptileOfObs_map_val cq ref k v hcqlen hpos hsort]
    exact ptileOfObsQ_low cq ref k v hcqlen hpos hsort hk hnot hle

/-- Witness for the amended C7: column `[0, 1, 2]`, reference percentiles
`[1/4, 1/2, 3/4]`, `k = 1`; the value 5 exceeds `p100 = 2` and saturates
to 1, the value `-5` is below `p0 = 0` and saturates to 0. -/
theorem values_to_ptiles_saturation_amended_witness :
    (∃ out, values_to_ptiles [RVal.val 5]
        [[RVal.val 0, RVal.val 1, RVal.val 2]] [1/4, 1/2, 3/4] 1 =
          .ok out ∧ out.getD 0 RVal.nan = RVal.val 1) ∧
    (∃ out, values_to_ptiles [RVal.val (-5)]
        [[RVal.val 0, RVal.val 1, RVal.val 2]] [1/4, 1/2, 3/4] 1 =
          .ok out ∧ out.getD 0 RVal.nan = RVal.val 0) := by
  constructor
  · obtain ⟨out, hok, hhigh, -⟩ :=
      values_to_ptiles_saturation_amended [RVal.val 5]
        [[RVal.val 0, RVal.val 1, RVal.val 2]] [1/4, 1/2, 3/4] 1 0
        [0, 1, 2] 5 (by decide) (by simp) (by decide) (by rfl)
        (by norm_num [List.chain'_cons, List.chain'_singleton])
        (by norm_num) (by decide) (by rfl)
        (by with_unfolding_all decide)
    exact ⟨out, hok, hhigh (by with_unfolding_all decide)⟩
  · obtain ⟨out, hok, -, hlow⟩ :=
      values_to_ptiles_saturation_amended [RVal.val (-5)]
        [[RVal.val 0, RVal.val 1, RVal.val 2]] [1/4, 1/2, 3/4] 1 0
        [0, 1, 2] (-5) (by decide) (by simp) (by decide) (by rfl)
        (by norm_num [List.chain'_cons, List.chain'_singleton])
        (by norm_num) (by decide) (by rfl)
        (by with_unfolding_all decide)
    exact ⟨out, hok, hlow (by with_unfolding_all decide)⟩

/-- Witness for C3 at a concrete POE table and `ptiles = [33, 67]`. -/
theorem poe_to_terciles_spec_witness :
    ∃ below near above,
      poe_to_terciles [[(1 : ℚ)/2, 2/3], [1/4, 1/3]] [33, 67] =
        .ok (below, near, above) ∧
      (∀ loc, loc < near.length →
        below.getD loc 0 + near.getD loc 0 + above.getD loc 0 = 1) := by
  obtain ⟨b, n, a, hok, -, -, -, hsum, -⟩ :=
    poe_to_terciles_spec [[(1 : ℚ)/2, 2/3], [1/4, 1/3]] [33, 67]
      (by norm_num) (by norm_num)
  exact ⟨b, n, a, hok, hsum⟩

/-!
## C5: monotonicity of `values_to_ptiles` in the observed value
-/

theorem qlt_upward (cq : List ℚ) (v : ℚ) (hsort : cq.Chain' (· ≤ ·)) :
    ∀ i j, i ≤ j → j < cq.length →
      qlt v (cq.getD i v) = true → qlt v (cq.getD j v) = true := by
  intro i j hij hj hq
  unfold qlt at hq ⊢
  rw [decide_eq_true_eq] at hq
  rw [decide_eq_true_eq]
  have hle := chain'_le_getD cq hsort i j hij hj
  rw [getD_eq_getElem_of_lt _ _ i (by omega),
    getD_eq_getElem_of_lt _ _ j hj] at hle
  rw [getD_eq_getElem_of_lt _ _ i (by omega)] at hq
  rw [getD_eq_getElem_of_lt _ _ j hj]
  exact lt_of_lt_of_le hq hle

/-- Everything strictly left of the bisection point is `≤ v`. -/
theorem bisect_pre_q (cq : List ℚ) (v : ℚ) (hsort : cq.Chain' (· ≤ ·)) :
    ∀ j, j < bisect qlt cq v → j < cq.length → cq.getD j 0 ≤ v := by
  intro j hj hjlen
  have := (bisect_spec qlt cq v (qlt_upward cq v hsort)).2.1 j hj
  unfold qlt at this
  rw [decide_eq_false_iff_not] at this
  push_neg at this
  rw [getD_eq_getElem_of_lt _ _ j hjlen] at this
  rw [getD_eq_getElem_of_lt _ _ j hjlen]
  exact this

/-- Everything from the bisection point on is `> v`. -/
theorem bisect_post_q (cq : List ℚ) (v : ℚ) (hsort : cq.Chain' (· ≤ ·)) :
    ∀ j, bisect qlt cq v ≤ j → j < cq.length → v < cq.getD j 0 := by
  intro j hj hjlen
  have := (bisect_spec qlt cq v (qlt_upward cq v hsort)).2.2 j hj hjlen
  unfold qlt at this
  rw [decide_eq_true_eq] at this
  rw [getD_eq_getElem_of_lt _ _ j hjlen] at this
  rw [getD_eq_getElem_of_lt _ _ j hjlen]
  exact this

theorem ref_getD_bounds (ref : List ℚ) (hrange : ∀ r ∈ ref, 0 ≤ r ∧ r ≤ 1)
    (j : Nat) (hj : j < ref.length) :
    0 ≤ ref.getD j 0 ∧ ref.getD j 0 ≤ 1 := by
  rw [getD_eq_getElem_of_lt _ _ j hj]
  exact hrange _ (List.getElem_mem hj)

/-- Branch 2 of the rational chain, with the facts describing the matched
index. -/
theorem ptQ_mem_val (cq ref : List ℚ) (k v : ℚ) (hmem : v ∈ cq) :
    ∃ j, ptileOfObsQ cq ref k v = RVal.val (ref.getD j 0) ∧
      j < cq.length ∧ cq.getD j 0 = v ∧
      ∀ j2, j2 < j → cq.getD j2 0 ≠ v := by
  have hex : ∃ x ∈ cq, (x == v) = true := ⟨v, hmem, by simp⟩
  have hflt : cq.findIdx (fun y => y == v) < cq.length :=
    List.findIdx_lt_length.mpr hex
  refine ⟨cq.findIdx (fun y => y == v), ?_, hflt, ?_, ?_⟩
  · simp only [ptileOfObsQ]
    rw [if_pos ((contains_eq_true_iff cq v).mpr hmem)]
  · have := @List.findIdx_getElem _ (fun y => y == v) cq hflt
    rw [beq_iff_eq] at this
    rw [getD_eq_getElem_of_lt _ _ _ hflt]
    exact this
  · intro j2 hj2
    have := List.not_of_lt_findIdx hj2
    rw [beq_eq_false_iff_ne] at this
    rw [getD_eq_getElem_of_lt _ _ j2 (by omega)]
    exact this

/-- Branch 7 of the rational chain: interior value matching no knot,
with the full bisection bracket. -/
theorem ptQ_gap_val (cq ref : List ℚ) (k v : ℚ)
    (hlen : cq.length = ref.length) (hpos : 0 < ref.length)
    (hsort : cq.Chain' (· ≤ ·)) (hk : 1 ≤ k) (hnot : v ∉ cq)
    (hgt : cq.getD 0 0 < v) (hlt : v < cq.getD (ref.length - 1) 0) :
    ∃ i, i = bisect qlt cq v ∧ 1 ≤ i ∧ i < cq.length ∧
      cq.getD (i - 1) 0 < v ∧ v < cq.getD i 0 ∧
      ptileOfObsQ cq ref k v =
        RVal.val (ref.getD (i - 1) 0 +
          (ref.getD i 0 - ref.getD (i - 1) 0) *
            ((v - cq.getD (i - 1) 0) /
              (cq.getD i 0 - cq.getD (i - 1) 0))) := by
  have hcq : 0 < cq.length := by omega
  have hmidlt : pMid ref cq.length < cq.length :=
    pMid_lt ref cq.length hcq (by omega)
  have hc0m : cq.getD 0 0 ≤ cq.getD (pMid ref cq.length) 0 :=
    chain'_le_getD cq hsort 0 _ (Nat.zero_le _) hmidlt
  have hmcl : cq.getD (pMid ref cq.length) 0 ≤ cq.getD (ref.length - 1) 0 := by
    by_cases h : pMid ref cq.length ≤ ref.length - 1
    · exact chain'_le_getD cq hsort _ _ h (by omega)
    · omega
  have hclp100 : cq.getD (ref.length - 1) 0 ≤
      k * (cq.getD (ref.length - 1) 0 - cq.getD (pMid ref cq.length) 0) +
        cq.getD (pMid ref cq.length) 0 := by
    nlinarith
  have hp0c0 : k * (cq.getD 0 0 - cq.getD (pMid ref cq.length) 0) +
      cq.getD (pMid ref cq.length) 0 ≤ cq.getD 0 0 := by
    nlinarith
  have hbr := bisect_bracket cq v hsort hnot hcq hgt
    (by
      have he : cq.length - 1 = ref.length - 1 := by omega
      rw [he]
      exact hlt)
  refine ⟨bisect qlt cq v, rfl, hbr.1, hbr.2.1, hbr.2.2.1, hbr.2.2.2, ?_⟩
  have h1 : ¬ (cq.contains v = true) := fun h =>
    hnot ((contains_eq_true_iff cq v).mp h)
  have hden : cq.getD (bisect qlt cq v) 0 -
      cq.getD (bisect qlt cq v - 1) 0 ≠ 0 := by
    have h3 := hbr.2.2.1
    have h4 := hbr.2.2.2
    intro hz
    nlinarith
  simp only [ptileOfObsQ]
  rw [if_neg h1,
    if_neg (by intro h; linarith),
    if_neg (by rintro ⟨h, -⟩; linarith),
    if_neg (by intro h; linarith),
    if_neg (by rintro ⟨h, -⟩; linarith),
    if_pos ⟨hgt, hlt⟩,
    if_neg hden]

theorem chain'_lt_le_getD (rq : List ℚ) (hs : rq.Chain' (· < ·)) :
    ∀ i j, i ≤ j → j < rq.length → rq.getD i 0 ≤ rq.getD j 0 := by
  intro i j hij hj
  rcases Nat.eq_or_lt_of_le hij with rfl | hlt
  · exact le_refl _
  · exact le_of_lt (chain'_lt_getD rq hs i j hlt hj)

theorem not_mem_of_lt_first (cq : List ℚ) (v : ℚ)
    (hsort : cq.Chain' (· ≤ ·)) (hpos : 0 < cq.length)
    (h : v < cq.getD 0 0) : v ∉ cq := by
  intro hmem
  obtain ⟨j, hj, hjv⟩ := List.mem_iff_getElem.mp hmem
  have hle := chain'_le_getD cq hsort 0 j (Nat.zero_le _) hj
  rw [getD_eq_getElem_of_lt _ _ 0 hpos, getD_eq_getElem_of_lt _ _ j hj] at hle
  rw [getD_eq_getElem_of_lt _ _ 0 hpos] at h
  rw [hjv] at hle
  linarith

theorem not_mem_of_gt_last (cq ref : List ℚ) (v : ℚ)
    (hsort : cq.Chain' (· ≤ ·)) (hlen : cq.length = ref.length)
    (hpos : 0 < ref.length)
    (h : cq.getD (ref.length - 1) 0 < v) : v ∉ cq := by
  intro hmem
  obtain ⟨j, hj, hjv⟩ := List.mem_iff_getElem.mp hmem
  have hle := chain'_le_getD cq hsort j (ref.length - 1) (by omega) (by omega)
  rw [getD_eq_getElem_of_lt _ _ j hj,
    getD_eq_getElem_of_lt _ _ (ref.length - 1) (by omega)] at hle
  rw [getD_eq_getElem_of_lt _ _ (ref.length - 1) (by omega)] at h
  rw [hjv] at hle
  linarith

/-- Branch 6 of the rational chain: value in the lower extrapolation
interval `(p0, climo[0])`. -/
theorem ptQ_zone1_val (cq ref : List ℚ) (k v : ℚ)
    (hlen : cq.length = ref.length) (hpos : 0 < ref.length)
    (hsort : cq.Chain' (· ≤ ·)) (hk : 1 ≤ k)
    (h1 : k * (cq.getD 0 0 - cq.getD (pMid ref cq.length) 0) +
      cq.getD (pMid ref cq.length) 0 < v)
    (h2 : v < cq.getD 0 0) :
    ptileOfObsQ cq ref k v =
      RVal.val (ref.getD 0 0 +
        (v - cq.getD 0 0) /
          (k * (cq.getD 0 0 - cq.getD (pMid ref cq.length) 0) +
            cq.getD (pMid ref cq.length) 0 - cq.getD 0 0) *
          (0 - ref.getD 0 0)) := by
  have hcq : 0 < cq.length := by omega
  have hmidlt : pMid ref cq.length < cq.length :=
    pMid_lt ref cq.length hcq (by omega)
  have hc0m : cq.getD 0 0 ≤ cq.getD (pMid ref cq.length) 0 :=
    chain'_le_getD cq hsort 0 _ (Nat.zero_le _) hmidlt
  have hmcl : cq.getD (pMid ref cq.length) 0 ≤ cq.getD (ref.length - 1) 0 := by
    by_cases h : pMid ref cq.length ≤ ref.length - 1
    · exact chain'_le_getD cq hsort _ _ h (by omega)
    · omega
  have hmp100 : cq.getD (pMid ref cq.length) 0 ≤
      k * (cq.getD (ref.length - 1) 0 - cq.getD (pMid ref cq.length) 0) +
        cq.getD (pMid ref cq.length) 0 := by
    nlinarith
  have hnot : v ∉ cq := not_mem_of_lt_first cq v hsort hcq h2
  have h1c : ¬ (cq.contains v = true) := fun h =>
    hnot ((contains_eq_true_iff cq v).mp h)
  simp only [ptileOfObsQ]
  rw [if_neg h1c,
    if_neg (by intro h; linarith),
    if_neg (by rintro ⟨h, -⟩; linarith),
    if_neg (by intro h; linarith),
    if_pos ⟨h2, h1⟩,
    if_neg (by intro h; linarith)]

/-- Branch 4 of the rational chain: value in the upper extrapolation
interval `(climo[last], p100)`. -/
theorem ptQ_zone3_val (cq ref : List ℚ) (k v : ℚ)
    (hlen : cq.length = ref.length) (hpos : 0 < ref.length)
    (hsort : cq.Chain' (· ≤ ·)) (hk : 1 ≤ k)
    (h1 : cq.getD (ref.length - 1) 0 < v)
    (h2 : v < k * (cq.getD (ref.length - 1) 0 -
      cq.getD (pMid ref cq.length) 0) + cq.getD (pMid ref cq.length) 0) :
    ptileOfObsQ cq ref k v =
      RVal.val (ref.getD (ref.length - 1) 0 +
        (v - cq.getD (ref.length - 1) 0) /
          (k * (cq.getD (ref.length - 1) 0 -
            cq.getD (pMid ref cq.length) 0) +
            cq.getD (pMid ref cq.length) 0 - cq.getD (ref.length - 1) 0) *
          (1 - ref.getD (ref.length - 1) 0)) := by
  have hcq : 0 < cq.length := by omega
  have hnot : v ∉ cq := not_mem_of_gt_last cq ref v hsort hlen hpos h1
  have h1c : ¬ (cq.contains v = true) := fun h =>
    hnot ((contains_eq_true_iff cq v).mp h)
  simp only [ptileOfObsQ]
  rw [if_neg h1c,
    if_neg (by intro h; linarith),
    if_pos ⟨h1, h2⟩,
    if_neg (by intro h; linarith)]

/-- Value-and-bounds profile of the rational chain on a sorted column
with strictly ascending reference percentiles in `[0,1]` and `k ≥ 1`:
the result is a number in `[0,1]`, below `ref[0]` left of `climo[0]`,
above `ref[0]` from `climo[0]` on, below `ref[last]` up to `climo[last]`,
above `ref[last]` beyond it. -/
theorem ptQ_profile (cq ref : List ℚ) (k v : ℚ)
    (hlen : cq.length = ref.length) (hpos : 0 < ref.length)
    (hsort : cq.Chain' (· ≤ ·)) (href : ref.Chain' (· < ·))
    (hrange : ∀ r ∈ ref, 0 ≤ r ∧ r ≤ 1) (hk : 1 ≤ k) :
    ∃ q, ptileOfObsQ cq ref k v = RVal.val q ∧ 0 ≤ q ∧ q ≤ 1 ∧
      (v < cq.getD 0 0 → q ≤ ref.getD 0 0) ∧
      (cq.getD 0 0 ≤ v → ref.getD 0 0 ≤ q) ∧
      (v ≤ cq.getD (ref.length - 1) 0 → q ≤ ref.getD (ref.length - 1) 0) ∧
      (cq.getD (ref.length - 1) 0 < v → ref.getD (ref.length - 1) 0 ≤ q) := by
  have hcq : 0 < cq.length := by omega
  have hmidlt : pMid ref cq.length < cq.length :=
    pMid_lt ref cq.length hcq (by omega)
  have hc0m : cq.getD 0 0 ≤ cq.getD (pMid ref cq.length) 0 :=
    chain'_le_getD cq hsort 0 _ (Nat.zero_le _) hmidlt
  have hmcl : cq.getD (pMid ref cq.length) 0 ≤ cq.getD (ref.length - 1) 0 := by
    by_cases h : pMid ref cq.length ≤ ref.length - 1
    · exact chain'_le_getD cq hsort _ _ h (by omega)
    · omega
  have hc0cl : cq.getD 0 0 ≤ cq.getD (ref.length - 1) 0 :=
    chain'_le_getD cq hsort 0 _ (Nat.zero_le _) (by omega)
  have hclp100 : cq.getD (ref.length - 1) 0 ≤
      k * (cq.getD (ref.length - 1) 0 - cq.getD (pMid ref cq.length) 0) +
        cq.getD (pMid ref cq.length) 0 := by nlinarith
  have hp0c0 : k * (cq.getD 0 0 - cq.getD (pMid ref cq.length) 0) +
      cq.getD (pMid ref cq.length) 0 ≤ cq.getD 0 0 := by nlinarith
  have hr0 := ref_getD_bounds ref hrange 0 hpos
  have hrL := ref_getD_bounds ref hrange (ref.length - 1) (by omega)
  have hr0L : ref.getD 0 0 ≤ ref.getD (ref.length - 1) 0 :=
    chain'_lt_le_getD ref href 0 _ (Nat.zero_le _) (by omega)
  have hc0mem : cq.getD 0 0 ∈ cq := by
    rw [getD_eq_getElem_of_lt cq 0 0 hcq]
    exact List.getElem_mem hcq
  have hclmem : cq.getD (ref.length - 1) 0 ∈ cq := by
    rw [getD_eq_getElem_of_lt cq 0 (ref.length - 1) (by omega)]
    exact List.getElem_mem (by omega)
  rcases lt_or_ge v (cq.getD 0 0) with hvc0 | hvc0
  · have hnot : v ∉ cq := not_mem_of_lt_first cq v hsort hcq hvc0
    rcases le_or_lt v (k * (cq.getD 0 0 - cq.getD (pMid ref cq.length) 0) +
        cq.getD (pMid ref cq.length) 0) with hvp0 | hvp0
    · refine ⟨0, ptileOfObsQ_low cq ref k v hlen hpos hsort (by linarith)
        hnot hvp0, le_refl 0, by norm_num, ?_, ?_, ?_, ?_⟩
      · intro _; exact hr0.1
      · intro h; linarith
      · intro _; exact hrL.1
      · intro h; linarith
    · have hval := ptQ_zone1_val cq ref k v hlen hpos hsort hk hvp0 hvc0
      set d := k * (cq.getD 0 0 - cq.getD (pMid ref cq.length) 0) +
        cq.getD (pMid ref cq.length) 0 - cq.getD 0 0 with hd
      have hdneg : d < 0 := by rw [hd]; linarith
      set t := (v - cq.getD 0 0) / d with ht
      have htd : t * d = v - cq.getD 0 0 :=
        div_mul_cancel₀ _ (ne_of_lt hdneg)
      have ht0 : 0 < t := by
        rw [ht]; exact div_pos_iff.mpr (Or.inr ⟨by linarith, hdneg⟩)
      have ht1 : t ≤ 1 := by
        by_contra hgt
        push_neg at hgt
        have h2 := mul_lt_mul_of_neg_right hgt hdneg
        rw [htd, one_mul, hd] at h2
        linarith
      have hprodA : t * (0 - ref.getD 0 0) = -(t * ref.getD 0 0) := by ring
      have hprodB : 0 ≤ t * ref.getD 0 0 := mul_nonneg (le_of_lt ht0) hr0.1
      have hprodC : t * ref.getD 0 0 ≤ ref.getD 0 0 :=
        mul_le_of_le_one_left hr0.1 ht1
      have hqform : ptileOfObsQ cq ref k v =
          RVal.val (ref.getD 0 0 + t * (0 - ref.getD 0 0)) := hval
      refine ⟨_, hqform, by linarith, by linarith [hr0.2],
        ?_, ?_, ?_, ?_⟩
      · intro _; linarith
      · intro h; linarith
      · intro _; linarith [hr0L]
      · intro h; linarith
  · rcases le_or_lt v (cq.getD (ref.length - 1) 0) with hvcl | hvcl
    · by_cases hmem : v ∈ cq
      · obtain ⟨j, hval, hjlt, hjv, -⟩ := ptQ_mem_val cq ref k v hmem
        have hjb := ref_getD_bounds ref hrange j (by omega)
        have h0j : ref.getD 0 0 ≤ ref.getD j 0 :=
          chain'_lt_le_getD ref href 0 j (Nat.zero_le _) (by omega)
        have hjL : ref.getD j 0 ≤ ref.getD (ref.length - 1) 0 :=
          chain'_lt_le_getD ref href j _ (by omega) (by omega)
        refine ⟨_, hval, hjb.1, hjb.2, ?_, ?_, ?_, ?_⟩
        · intro h; linarith
        · intro _; exact h0j
        · intro _; exact hjL
        · intro h; linarith
      · have hvc0s : cq.getD 0 0 < v :=
          lt_of_le_of_ne hvc0 (fun h => hmem (h ▸ hc0mem))
        have hvcls : v < cq.getD (ref.length - 1) 0 :=
          lt_of_le_of_ne hvcl (fun h => hmem (h.symm ▸ hclmem))
        obtain ⟨i, -, hi1, hilt, hbl, hbr2, hval⟩ :=
          ptQ_gap_val cq ref k v hlen hpos hsort hk hmem hvc0s hvcls
        have hrd : ref.getD (i - 1) 0 ≤ ref.getD i 0 :=
          chain'_lt_le_getD ref href (i - 1) i (by omega) (by omega)
        have hr0i : ref.getD 0 0 ≤ ref.getD (i - 1) 0 :=
          chain'_lt_le_getD ref href 0 (i - 1) (Nat.zero_le _) (by omega)
        have hriL : ref.getD i 0 ≤ ref.getD (ref.length - 1) 0 :=
          chain'_lt_le_getD ref href i _ (by omega) (by omega)
        have hib := ref_getD_bounds ref hrange (i - 1) (by omega)
        have hib2 := ref_getD_bounds ref hrange i (by omega)
        set d := cq.getD i 0 - cq.getD (i - 1) 0 with hd
        have hdpos : 0 < d := by rw [hd]; linarith
        set t := (v - cq.getD (i - 1) 0) / d with ht
        have htd : t * d = v - cq.getD (i - 1) 0 :=
          div_mul_cancel₀ _ (ne_of_gt hdpos)
        have ht0 : 0 < t := by
          rw [ht]; exact div_pos (by linarith) hdpos
        have ht1 : t ≤ 1 := by
          rw [ht]; exact (div_le_one hdpos).mpr (by linarith)
        have hprodA : 0 ≤ (ref.getD i 0 - ref.getD (i - 1) 0) * t :=
          mul_nonneg (by linarith) (le_of_lt ht0)
        have hprodB : (ref.getD i 0 - ref.getD (i - 1) 0) * t ≤
            ref.getD i 0 - ref.getD (i - 1) 0 :=
          mul_le_of_le_one_right (by linarith) ht1
        have hqform : ptileOfObsQ cq ref k v =
            RVal.val (ref.getD (i - 1) 0 +
              (ref.getD i 0 - ref.getD (i - 1) 0) * t) := hval
        refine ⟨_, hqform, by linarith [hib.1], by linarith [hib2.2],
          ?_, ?_, ?_, ?_⟩
        · intro h; linarith
        · intro _; linarith [hr0i]
        · intro _; linarith [hriL]
        · intro h; linarith
    · have hnot : v ∉ cq := not_mem_of_gt_last cq ref v hsort hlen hpos hvcl
      rcases lt_or_ge v (k * (cq.getD (ref.length - 1) 0 -
          cq.getD (pMid ref cq.length) 0) +
          cq.getD (pMid ref cq.length) 0) with hvp100 | hvp100
      · have hval := ptQ_zone3_val cq ref k v hlen hpos hsort hk hvcl hvp100
        set d := k * (cq.getD (ref.length - 1) 0 -
          cq.getD (pMid ref cq.length) 0) +
          cq.getD (pMid ref cq.length) 0 - cq.getD (ref.length - 1) 0 with hd
        have hdpos : 0 < d := by rw [hd]; linarith
        set t := (v - cq.getD (ref.length - 1) 0) / d with ht
        have htd : t * d = v - cq.getD (ref.length - 1) 0 :=
          div_mul_cancel₀ _ (ne_of_gt hdpos)
        have ht0 : 0 < t := by
          rw [ht]; exact div_pos (by linarith) hdpos
        have ht1 : t ≤ 1 := by
          rw [ht]; exact (div_le_one hdpos).mpr (by linarith)
        have hprodB : 0 ≤ t * (1 - ref.getD (ref.length - 1) 0) :=
          mul_nonneg (le_of_lt ht0) (by linarith [hrL.2])
        have hprodC : t * (1 - ref.getD (ref.length - 1) 0) ≤
            1 - ref.getD (ref.length - 1) 0 :=
          mul_le_of_le_one_left (by linarith [hrL.2]) ht1
        have hqform : ptileOfObsQ cq ref k v =
            RVal.val (ref.getD (ref.length - 1) 0 +
              t * (1 - ref.getD (ref.length - 1) 0)) := hval
        refine ⟨_, hqform, by linarith [hrL.1],
          by linarith, ?_, ?_, ?_, ?_⟩
        · intro h; linarith
        · intro _; linarith [hr0L]
        · intro h; linarith
        · intro _; linarith
      · refine ⟨1, ptileOfObsQ_high cq ref k v hnot hvp100, by norm_num,
          le_refl 1, ?_, ?_, ?_, ?_⟩
        · intro h; linarith
        · intro _; exact hr0.2
        · intro h; linarith
        · intro _; exact hrL.2

/-- Monotonicity of the rational chain: on a sorted column with strictly
ascending reference percentiles in `[0,1]` and `k ≥ 1`, a larger
observation never gets a smaller percentile. -/
theorem ptileOfObsQ_mono (cq ref : List ℚ) (k v1 v2 : ℚ)
    (hlen : cq.length = ref.length) (hpos : 0 < ref.length)
    (hsort : cq.Chain' (· ≤ ·)) (href : ref.Chain' (· < ·))
    (hrange : ∀ r ∈ ref, 0 ≤ r ∧ r ≤ 1) (hk : 1 ≤ k)
    (h12 : v1 ≤ v2) :
    ∃ q1 q2, ptileOfObsQ cq ref k v1 = RVal.val q1 ∧
      ptileOfObsQ cq ref k v2 = RVal.val q2 ∧ q1 ≤ q2 := by
  have hcq : 0 < cq.length := by omega
  have hmidlt : pMid ref cq.length < cq.length :=
    pMid_lt ref cq.length hcq (by omega)
  have hc0m : cq.getD 0 0 ≤ cq.getD (pMid ref cq.length) 0 :=
    chain'_le_getD cq hsort 0 _ (Nat.zero_le _) hmidlt
  have hmcl : cq.getD (pMid ref cq.length) 0 ≤ cq.getD (ref.length - 1) 0 := by
    by_cases h : pMid ref cq.length ≤ ref.length - 1
    · exact chain'_le_getD cq hsort _ _ h (by omega)
    · omega
  have hc0cl : cq.getD 0 0 ≤ cq.getD (ref.length - 1) 0 :=
    chain'_le_getD cq hsort 0 _ (Nat.zero_le _) (by omega)
  have hclp100 : cq.getD (ref.length - 1) 0 ≤
      k * (cq.getD (ref.length - 1) 0 - cq.getD (pMid ref cq.length) 0) +
        cq.getD (pMid ref cq.length) 0 := by nlinarith
  have hp0c0 : k * (cq.getD 0 0 - cq.getD (pMid ref cq.length) 0) +
      cq.getD (pMid ref cq.length) 0 ≤ cq.getD 0 0 := by nlinarith
  have hr0 := ref_getD_bounds ref hrange 0 hpos
  have hrL := ref_getD_bounds ref hrange (ref.length - 1) (by omega)
  have hr0L : ref.getD 0 0 ≤ ref.getD (ref.length - 1) 0 :=
    chain'_lt_le_getD ref href 0 _ (Nat.zero_le _) (by omega)
  have hc0mem : cq.getD 0 0 ∈ cq := by
    rw [getD_eq_getElem_of_lt cq 0 0 hcq]
    exact List.getElem_mem hcq
  have hclmem : cq.getD (ref.length - 1) 0 ∈ cq := by
    rw [getD_eq_getElem_of_lt cq 0 (ref.length - 1) (by omega)]
    exact List.getElem_mem (by omega)
  obtain ⟨q1, he1, hq10, hq11, hA1, hB1, hC1, hD1⟩ :=
    ptQ_profile cq ref k v1 hlen hpos hsort href hrange hk
  obtain ⟨q2, he2, hq20, hq21, hA2, hB2, hC2, hD2⟩ :=
    ptQ_profile cq ref k v2 hlen hpos hsort href hrange hk
  refine ⟨q1, q2, he1, he2, ?_⟩
  rcases lt_or_ge v1 (cq.getD 0 0) with h1c0 | h1c0
  · rcases lt_or_ge v2 (cq.getD 0 0) with h2c0 | h2c0
    · -- both left of the first climatology value
      rcases le_or_lt v1 (k * (cq.getD 0 0 - cq.getD (pMid ref cq.length) 0) +
          cq.getD (pMid ref cq.length) 0) with h1p0 | h1p0
      · -- v1 in zone 0: its value is exactly 0
        have hz := ptileOfObsQ_low cq ref k v1 hlen hpos hsort (by linarith)
          (not_mem_of_lt_first cq v1 hsort hcq h1c0) h1p0
        have hq1e : q1 = 0 := RVal.val.inj (he1.symm.trans hz)
        linarith
      · -- both strictly inside zone 1: same interpolation interval
        have h2p0 : k * (cq.getD 0 0 - cq.getD (pMid ref cq.length) 0) +
            cq.getD (pMid ref cq.length) 0 < v2 := by linarith
        have hval1 := ptQ_zone1_val cq ref k v1 hlen hpos hsort hk h1p0 h1c0
        have hval2 := ptQ_zone1_val cq ref k v2 hlen hpos hsort hk h2p0 h2c0
        have hq1e := RVal.val.inj (he1.symm.trans hval1)
        have hq2e := RVal.val.inj (he2.symm.trans hval2)
        have hdneg : k * (cq.getD 0 0 - cq.getD (pMid ref cq.length) 0) +
            cq.getD (pMid ref cq.length) 0 - cq.getD 0 0 < 0 := by linarith
        have hsub : (v1 - cq.getD 0 0) /
            (k * (cq.getD 0 0 - cq.getD (pMid ref cq.length) 0) +
              cq.getD (pMid ref cq.length) 0 - cq.getD 0 0) -
            (v2 - cq.getD 0 0) /
            (k * (cq.getD 0 0 - cq.getD (pMid ref cq.length) 0) +
              cq.getD (pMid ref cq.length) 0 - cq.getD 0 0) =
            (v1 - v2) /
            (k * (cq.getD 0 0 - cq.getD (pMid ref cq.length) 0) +
              cq.getD (pMid ref cq.length) 0 - cq.getD 0 0) := by
          rw [div_sub_div_same, sub_sub_sub_cancel_right]
        have hnn : 0 ≤ (v1 - v2) /
            (k * (cq.getD 0 0 - cq.getD (pMid ref cq.length) 0) +
              cq.getD (pMid ref cq.length) 0 - cq.getD 0 0) :=
          div_nonneg_iff.mpr (Or.inr ⟨by linarith, le_of_lt hdneg⟩)
        have ht12 : (v2 - cq.getD 0 0) /
            (k * (cq.getD 0 0 - cq.getD (pMid ref cq.length) 0) +
              cq.getD (pMid ref cq.length) 0 - cq.getD 0 0) ≤
            (v1 - cq.getD 0 0) /
            (k * (cq.getD 0 0 - cq.getD (pMid ref cq.length) 0) +
              cq.getD (pMid ref cq.length) 0 - cq.getD 0 0) := by linarith
        have hmul := mul_le_mul_of_nonneg_right ht12 hr0.1
        have e1 : (v1 - cq.getD 0 0) /
            (k * (cq.getD 0 0 - cq.getD (pMid ref cq.length) 0) +
              cq.getD (pMid ref cq.length) 0 - cq.getD 0 0) *
            (0 - ref.getD 0 0) =
            -((v1 - cq.getD 0 0) /
              (k * (cq.getD 0 0 - cq.getD (pMid ref cq.length) 0) +
                cq.getD (pMid ref cq.length) 0 - cq.getD 0 0) *
              ref.getD 0 0) := by ring
        have e2 : (v2 - cq.getD 0 0) /
            (k * (cq.getD 0 0 - cq.getD (pMid ref cq.length) 0) +
              cq.getD (pMid ref cq.length) 0 - cq.getD 0 0) *
            (0 - ref.getD 0 0) =
            -((v2 - cq.getD 0 0) /
              (k * (cq.getD 0 0 - cq.getD (pMid ref cq.length) 0) +
                cq.getD (pMid ref cq.length) 0 - cq.getD 0 0) *
              ref.getD 0 0) := by ring
        rw [hq1e, hq2e, e1, e2]
        linarith
    · -- v1 left of climo[0], v2 at or right of it
      linarith [hA1 h1c0, hB2 h2c0]
  · rcases le_or_lt v2 (cq.getD (ref.length - 1) 0) with h2cl | h2cl
    · -- both inside [climo[0], climo[last]]
      have h1cl : v1 ≤ cq.getD (ref.length - 1) 0 := by linarith
      by_cases hmem1 : v1 ∈ cq
      · obtain ⟨j1, hval1, hj1lt, hj1v, hj1first⟩ := ptQ_mem_val cq ref k v1 hmem1
        have hq1e : q1 = ref.getD j1 0 := RVal.val.inj (he1.symm.trans hval1)
        by_cases hmem2 : v2 ∈ cq
        · obtain ⟨j2, hval2, hj2lt, hj2v, hj2first⟩ :=
            ptQ_mem_val cq ref k v2 hmem2
          have hq2e : q2 = ref.getD j2 0 := RVal.val.inj (he2.symm.trans hval2)
          have hj12 : j1 ≤ j2 := by
            by_contra hgt
            push_neg at hgt
            have hle := chain'_le_getD cq hsort j2 j1 (by omega) hj1lt
            have heq : v1 = v2 := by
              rw [← hj1v, ← hj2v] at h12 ⊢
              linarith
            exact hj1first j2 hgt (by rw [hj2v, ← heq])
          rw [hq1e, hq2e]
          exact chain'_lt_le_getD ref href j1 j2 hj12 (by omega)
        · have hvc0s : cq.getD 0 0 < v2 := by
            rcases lt_or_eq_of_le (le_trans h1c0 h12) with h | h
            · exact h
            · exact absurd (h ▸ hc0mem) hmem2
          have hvcls : v2 < cq.getD (ref.length - 1) 0 := by
            rcases lt_or_eq_of_le h2cl with h | h
            · exact h
            · exact absurd (h.symm ▸ hclmem) hmem2
          obtain ⟨i2, -, hi21, hi2lt, hbl2, hbr2, hval2⟩ :=
            ptQ_gap_val cq ref k v2 hlen hpos hsort hk hmem2 hvc0s hvcls
          have hq2e := RVal.val.inj (he2.symm.trans hval2)
          have hj1i2 : j1 + 1 ≤ i2 := by
            by_contra hgt
            push_neg at hgt
            have hle := chain'_le_getD cq hsort i2 j1 (by omega) hj1lt
            rw [hj1v] at hle
            linarith
          have hrd : ref.getD (i2 - 1) 0 ≤ ref.getD i2 0 :=
            chain'_lt_le_getD ref href (i2 - 1) i2 (by omega) (by omega)
          have hD : 0 < cq.getD i2 0 - cq.getD (i2 - 1) 0 := by linarith
          have ht0 : 0 < (v2 - cq.getD (i2 - 1) 0) /
              (cq.getD i2 0 - cq.getD (i2 - 1) 0) :=
            div_pos (by linarith) hD
          have hprodA : 0 ≤ (ref.getD i2 0 - ref.getD (i2 - 1) 0) *
              ((v2 - cq.getD (i2 - 1) 0) /
                (cq.getD i2 0 - cq.getD (i2 - 1) 0)) :=
            mul_nonneg (by linarith) (le_of_lt ht0)
          have hj1le : ref.getD j1 0 ≤ ref.getD (i2 - 1) 0 :=
            chain'_lt_le_getD ref href j1 (i2 - 1) (by omega) (by omega)
          rw [hq1e, hq2e]
          linarith
      · have hvc0s : cq.getD 0 0 < v1 := by
          rcases lt_or_eq_of_le h1c0 with h | h
          · exact h
          · exact absurd (h ▸ hc0mem) hmem1
        have hvcls : v1 < cq.getD (ref.length - 1) 0 := by
          rcases lt_or_eq_of_le h1cl with h | h
          · exact h
          · exact absurd (h.symm ▸ hclmem) hmem1
        obtain ⟨i1, -, hi11, hi1lt, hbl1, hbr1, hval1⟩ :=
          ptQ_gap_val cq ref k v1 hlen hpos hsort hk hmem1 hvc0s hvcls
        have hq1e := RVal.val.inj (he1.symm.trans hval1)
        have hrd1 : ref.getD (i1 - 1) 0 ≤ ref.getD i1 0 :=
          chain'_lt_le_getD ref href (i1 - 1) i1 (by omega) (by omega)
        have hD1p : 0 < cq.getD i1 0 - cq.getD (i1 - 1) 0 := by linarith
        have ht10 : 0 < (v1 - cq.getD (i1 - 1) 0) /
            (cq.getD i1 0 - cq.getD (i1 - 1) 0) :=
          div_pos (by linarith) hD1p
        have ht11 : (v1 - cq.getD (i1 - 1) 0) /
            (cq.getD i1 0 - cq.getD (i1 - 1) 0) ≤ 1 :=
          (div_le_one hD1p).mpr (by linarith)
        have hprodB1 : (ref.getD i1 0 - ref.getD (i1 - 1) 0) *
            ((v1 - cq.getD (i1 - 1) 0) /
              (cq.getD i1 0 - cq.getD (i1 - 1) 0)) ≤
            ref.getD i1 0 - ref.getD (i1 - 1) 0 :=
          mul_le_of_le_one_right (by linarith) ht11
        by_cases hmem2 : v2 ∈ cq
        · obtain ⟨j2, hval2, hj2lt, hj2v, hj2first⟩ :=
            ptQ_mem_val cq ref k v2 hmem2
          have hq2e : q2 = ref.getD j2 0 := RVal.val.inj (he2.symm.trans hval2)
          have hi1j2 : i1 ≤ j2 := by
            by_contra hgt
            push_neg at hgt
            have hle := chain'_le_getD cq hsort j2 (i1 - 1) (by omega) (by omega)
            rw [hj2v] at hle
            linarith
          have hij : ref.getD i1 0 ≤ ref.getD j2 0 :=
            chain'_lt_le_getD ref href i1 j2 hi1j2 (by omega)
          rw [hq1e, hq2e]
          linarith
        · have hvc0s2 : cq.getD 0 0 < v2 := by linarith
          have hvcls2 : v2 < cq.getD (ref.length - 1) 0 := by
            rcases lt_or_eq_of_le h2cl with h | h
            · exact h
            · exact absurd (h.symm ▸ hclmem) hmem2
          obtain ⟨i2, -, hi21, hi2lt, hbl2, hbr2, hval2⟩ :=
            ptQ_gap_val cq ref k v2 hlen hpos hsort hk hmem2 hvc0s2 hvcls2
          have hq2e := RVal.val.inj (he2.symm.trans hval2)
          have hrd2 : ref.getD (i2 - 1) 0 ≤ ref.getD i2 0 :=
            chain'_lt_le_getD ref href (i2 - 1) i2 (by omega) (by omega)
          have hD2p : 0 < cq.getD i2 0 - cq.getD (i2 - 1) 0 := by linarith
          have ht20 : 0 < (v2 - cq.getD (i2 - 1) 0) /
              (cq.getD i2 0 - cq.getD (i2 - 1) 0) :=
            div_pos (by linarith) hD2p
          have hprodA2 : 0 ≤ (ref.getD i2 0 - ref.getD (i2 - 1) 0) *
              ((v2 - cq.getD (i2 - 1) 0) /
                (cq.getD i2 0 - cq.getD (i2 - 1) 0)) :=
            mul_nonneg (by linarith) (le_of_lt ht20)
          rcases lt_trichotomy i1 i2 with hlt | heq | hgt
          · -- strictly earlier gap: chain through the knots between
            have hup : ref.getD i1 0 ≤ ref.getD (i2 - 1) 0 :=
              chain'_lt_le_getD ref href i1 (i2 - 1) (by omega) (by omega)
            rw [hq1e, hq2e]
            linarith
          · -- same gap: interpolation is monotone in the value
            subst heq
            have hsub : (v2 - cq.getD (i1 - 1) 0) /
                (cq.getD i1 0 - cq.getD (i1 - 1) 0) -
                (v1 - cq.getD (i1 - 1) 0) /
                (cq.getD i1 0 - cq.getD (i1 - 1) 0) =
                (v2 - v1) / (cq.getD i1 0 - cq.getD (i1 - 1) 0) := by
              rw [div_sub_div_same, sub_sub_sub_cancel_right]
            have hnn : 0 ≤ (v2 - v1) / (cq.getD i1 0 - cq.getD (i1 - 1) 0) :=
              div_nonneg (by linarith) (le_of_lt hD1p)
            have ht12 : (v1 - cq.getD (i1 - 1) 0) /
                (cq.getD i1 0 - cq.getD (i1 - 1) 0) ≤
                (v2 - cq.getD (i1 - 1) 0) /
                (cq.getD i1 0 - cq.getD (i1 - 1) 0) := by linarith
            have hmul := mul_le_mul_of_nonneg_left ht12
              (by linarith : (0:ℚ) ≤ ref.getD i1 0 - ref.getD (i1 - 1) 0)
            rw [hq1e, hq2e]
            linarith
          · -- a later gap for the smaller value is impossible
            exfalso
            have hle := chain'_le_getD cq hsort i2 (i1 - 1) (by omega) (by omega)
            linarith
    · rcases le_or_lt v1 (cq.getD (ref.length - 1) 0) with h1cl | h1cl
      · -- v1 inside, v2 right of climo[last]
        linarith [hC1 h1cl, hD2 h2cl]
      · -- both right of climo[last]
        rcases le_or_lt (k * (cq.getD (ref.length - 1) 0 -
            cq.getD (pMid ref cq.length) 0) +
            cq.getD (pMid ref cq.length) 0) v2 with h2p | h2p
        · -- v2 in zone 4: its value is exactly 1
          have hz := ptileOfObsQ_high cq ref k v2
            (not_mem_of_gt_last cq ref v2 hsort hlen hpos h2cl) h2p
          have hq2e : q2 = 1 := RVal.val.inj (he2.symm.trans hz)
          linarith
        · -- both strictly inside zone 3: same interpolation interval
          have h1p : v1 < k * (cq.getD (ref.length - 1) 0 -
              cq.getD (pMid ref cq.length) 0) +
              cq.getD (pMid ref cq.length) 0 := by linarith
          have hval1 := ptQ_zone3_val cq ref k v1 hlen hpos hsort hk h1cl h1p
          have hval2 := ptQ_zone3_val cq ref k v2 hlen hpos hsort hk h2cl h2p
          have hq1e := RVal.val.inj (he1.symm.trans hval1)
          have hq2e := RVal.val.inj (he2.symm.trans hval2)
          have hdpos : 0 < k * (cq.getD (ref.length - 1) 0 -
              cq.getD (pMid ref cq.length) 0) +
              cq.getD (pMid ref cq.length) 0 - cq.getD (ref.length - 1) 0 := by
            linarith
          have hsub : (v2 - cq.getD (ref.length - 1) 0) /
              (k * (cq.getD (ref.length - 1) 0 -
                cq.getD (pMid ref cq.length) 0) +
                cq.getD (pMid ref cq.length) 0 - cq.getD (ref.length - 1) 0) -
              (v1 - cq.getD (ref.length - 1) 0) /
              (k * (cq.getD (ref.length - 1) 0 -
                cq.getD (pMid ref cq.length) 0) +
                cq.getD (pMid ref cq.length) 0 - cq.getD (ref.length - 1) 0) =
              (v2 - v1) /
              (k * (cq.getD (ref.length - 1) 0 -
                cq.getD (pMid ref cq.length) 0) +
                cq.getD (pMid ref cq.length) 0 - cq.getD (ref.length - 1) 0) := by
            rw [div_sub_div_same, sub_sub_sub_cancel_right]
          have hnn : 0 ≤ (v2 - v1) /
              (k * (cq.getD (ref.length - 1) 0 -
                cq.getD (pMid ref cq.length) 0) +
                cq.getD (pMid ref cq.length) 0 - cq.getD (ref.length - 1) 0) :=
            div_nonneg (by linarith) (le_of_lt hdpos)
          have ht12 : (v1 - cq.getD (ref.length - 1) 0) /
              (k * (cq.getD (ref.length - 1) 0 -
                cq.getD (pMid ref cq.length) 0) +
                cq.getD (pMid ref cq.length) 0 - cq.getD (ref.length - 1) 0) ≤
              (v2 - cq.getD (ref.length - 1) 0) /
              (k * (cq.getD (ref.length - 1) 0 -
                cq.getD (pMid ref cq.length) 0) +
                cq.getD (pMid ref cq.length) 0 - cq.getD (ref.length - 1) 0) := by
            linarith
          have hmul := mul_le_mul_of_nonneg_right ht12
            (by linarith [hrL.2] : (0:ℚ) ≤ 1 - ref.getD (ref.length - 1) 0)
          rw [hq1e, hq2e]
          linarith

/-- C5 counterexample: with `k = 1/2 > 0`, a sorted column `[0, 5, 10]`
and strictly ascending reference percentiles `[0.1, 0.5, 0.9]`, the
observation `8` maps to `1.0` while the larger observation `10` maps to
`0.9`: `values_to_ptiles` is not monotone for every `k > 0`. -/
theorem values_to_ptiles_mono_cex :
    (0:ℚ) < 1/2 ∧
    values_to_ptiles [RVal.val 8] [[RVal.val 0, RVal.val 5, RVal.val 10]]
      [1/10, 1/2, 9/10] (1/2) = .ok [RVal.val 1] ∧
    values_to_ptiles [RVal.val 10] [[RVal.val 0, RVal.val 5, RVal.val 10]]
      [1/10, 1/2, 9/10] (1/2) = .ok [RVal.val (9/10)] ∧
    (8:ℚ) ≤ 10 ∧ ¬ ((1:ℚ) ≤ 9/10) := by
  refine ⟨by norm_num, ?_, ?_, by norm_num, by norm_num⟩
  · with_unfolding_all rfl
  · with_unfolding_all rfl

/-- C5 (amended): monotonicity does hold once `k ≥ 1` and the reference
percentiles are strictly ascending and lie in `[0,1]`: on a validated
call with a sorted rational climatology column at location `i`, two
non-NaN values `v1 ≤ v2` receive percentiles `q1 ≤ q2`. -/
theorem values_to_ptiles_mono_amended
    (a1 a2 : List RVal) (climo : List (List RVal)) (ref : List ℚ) (k : ℚ)
    (cq : List ℚ) (i : Nat) (v1 v2 : ℚ)
    (hlen1 : a1.length = climo.length) (hlen2 : a2.length = climo.length)
    (hcols : ∀ col ∈ climo, col.length = ref.length)
    (hpos : 0 < ref.length)
    (hi : i < a1.length)
    (hcol : climo.getD i [] = cq.map RVal.val)
    (hclen : cq.length = ref.length)
    (hsort : cq.Chain' (· ≤ ·)) (href : ref.Chain' (· < ·))
    (hrange : ∀ r ∈ ref, 0 ≤ r ∧ r ≤ 1) (hk : 1 ≤ k)
    (hv1 : a1.getD i RVal.nan = RVal.val v1)
    (hv2 : a2.getD i RVal.nan = RVal.val v2)
    (h12 : v1 ≤ v2) :
    ∃ out1 out2, values_to_ptiles a1 climo ref k = .ok out1 ∧
      values_to_ptiles a2 climo ref k = .ok out2 ∧
      ∃ q1 q2, out1.getD i RVal.nan = RVal.val q1 ∧
        out2.getD i RVal.nan = RVal.val q2 ∧ q1 ≤ q2 := by
  refine ⟨_, _, values_to_ptiles_ok a1 climo ref k hlen1 hcols hpos,
    values_to_ptiles_ok a2 climo ref k hlen2 hcols hpos, ?_⟩
  rw [values_to_ptiles_getD a1 climo ref k i hi,
    values_to_ptiles_getD a2 climo ref k i (by omega),
    hcol, hv1, hv2,
    ptileOfObs_map_val cq ref k v1 hclen hpos hsort,
    ptileOfObs_map_val cq ref k v2 hclen hpos hsort]
  exact ptileOfObsQ_mono cq ref k v1 v2 hclen hpos hsort href hrange hk h12

/-- Witness for the amended C5 statement at a concrete input. -/
theorem values_to_ptiles_mono_amended_witness :
    ∃ out1 out2,
      values_to_ptiles [RVal.val (1/2)]
        [[RVal.val 0, RVal.val 1, RVal.val 2]] [1/4, 1/2, 3/4] 1 = .ok out1 ∧
      values_to_ptiles [RVal.val (3/2)]
        [[RVal.val 0, RVal.val 1, RVal.val 2]] [1/4, 1/2, 3/4] 1 = .ok out2 ∧
      ∃ q1 q2, out1.getD 0 RVal.nan = RVal.val q1 ∧
        out2.getD 0 RVal.nan = RVal.val q2 ∧ q1 ≤ q2 :=
  values_to_ptiles_mono_amended [RVal.val (1/2)] [RVal.val (3/2)]
    [[RVal.val 0, RVal.val 1, RVal.val 2]] [1/4, 1/2, 3/4] 1
    [0, 1, 2] 0 (1/2) (3/2) rfl rfl
    (by intro col h; simp only [List.mem_singleton] at h; subst h; rfl)
    (by norm_num) (by norm_num) rfl rfl
    (by norm_num [List.chain'_cons, List.chain'_singleton])
    (by norm_num [List.chain'_cons, List.chain'_singleton])
    (by intro r hr; fin_cases hr <;> norm_num)
    (le_refl 1) rfl rfl (by norm_num)

/-- `linspace a b n` is strictly increasing when `a < b` and `n ≥ 2`. -/
theorem linspace_strictMono (a b : ℚ) (n : Nat) (hab : a < b) (hn : 2 ≤ n)
    (i j : Nat) (hij : i < j) (hj : j < n) :
    (linspace a b n).getD i 0 < (linspace a b n).getD j 0 := by
  unfold linspace
  rw [getD_map_of_lt _ _ i (by rw [List.length_range]; omega) 0,
    getD_map_of_lt _ _ j (by rw [List.length_range]; omega) 0]
  have hi2 : (List.range n).getD i 0 = i := by
    rw [List.getD_eq_getElem?_getD, List.getElem?_range (by omega)]
    rfl
  have hj2 : (List.range n).getD j 0 = j := by
    rw [List.getD_eq_getElem?_getD, List.getElem?_range hj]
    rfl
  rw [hi2, hj2]
  have hden : 0 < (n : ℚ) - 1 := by
    have h2 : (2 : ℚ) ≤ (n : ℚ) := by exact_mod_cast hn
    linarith
  have hcast : (i : ℚ) < (j : ℚ) := by exact_mod_cast hij
  have h1 : (b - a) * (i : ℚ) < (b - a) * (j : ℚ) :=
    mul_lt_mul_of_pos_left hcast (by linarith)
  have h2 : (b - a) * (i : ℚ) / ((n : ℚ) - 1) <
      (b - a) * (j : ℚ) / ((n : ℚ) - 1) := (div_lt_div_right hden).mpr h1
  linarith

/-- On a strictly increasing grid, the nearest index is monotone in the
target (`find_nearest_index` breaks ties towards the earlier index on
both sides, which preserves weak monotonicity). -/
theorem fni_mono (xs : List ℚ)
    (hmono : ∀ i j, i < j → j < xs.length → xs.getD i 0 < xs.getD j 0)
    (hne : xs ≠ []) (z1 z2 : ℚ) (h12 : z1 ≤ z2) :
    find_nearest_index xs z1 ≤ find_nearest_index xs z2 := by
  by_contra hgt
  push_neg at hgt
  obtain ⟨hlt1, hmin1, hstrict1⟩ := find_nearest_index_spec xs z1 hne
  obtain ⟨hlt2, hmin2, hstrict2⟩ := find_nearest_index_spec xs z2 hne
  have hA : |xs.getD (find_nearest_index xs z1) 0 - z1| <
      |xs.getD (find_nearest_index xs z2) 0 - z1| := hstrict1 _ hgt
  have hB : |xs.getD (find_nearest_index xs z2) 0 - z2| ≤
      |xs.getD (find_nearest_index xs z1) 0 - z2| := hmin2 _ hlt1
  have hx : xs.getD (find_nearest_index xs z2) 0 <
      xs.getD (find_nearest_index xs z1) 0 := hmono _ _ hgt hlt1
  have hA2 : (xs.getD (find_nearest_index xs z1) 0 - z1) ^ 2 <
      (xs.getD (find_nearest_index xs z2) 0 - z1) ^ 2 := by
    have h := pow_lt_pow_left hA (abs_nonneg _) two_ne_zero
    rw [sq_abs, sq_abs] at h
    exact h
  have hB2 : (xs.getD (find_nearest_index xs z2) 0 - z2) ^ 2 ≤
      (xs.getD (find_nearest_index xs z1) 0 - z2) ^ 2 := by
    have h := pow_le_pow_left (abs_nonneg _) hB 2
    rw [sq_abs, sq_abs] at h
    exact h
  nlinarith [mul_nonneg (sub_nonneg.mpr h12) (le_of_lt (sub_pos.mpr hx))]

theorem length_cumsum (l : List ℚ) : (cumsum l).length = l.length := by
  simp [cumsum]

/-- Entry `m` of `numpy.cumsum` is the sum of the first `m + 1` entries. -/
theorem cumsum_getD (l : List ℚ) (m : Nat) (hm : m < l.length) :
    (cumsum l).getD m 0 = (l.take (m + 1)).sum := by
  unfold cumsum
  rw [getD_map_of_lt _ _ m (by rw [List.length_range]; omega) 0]
  have hm2 : (List.range l.length).getD m 0 = m := by
    rw [List.getD_eq_getElem?_getD, List.getElem?_range hm]
    rfl
  rw [hm2]

/-- Prefix sums of a list of nonnegative entries are monotone. -/
theorem prefix_sum_mono (l : List ℚ) (hnn : ∀ a ∈ l, 0 ≤ a) (i j : Nat)
    (hij : i ≤ j) : (l.take i).sum ≤ (l.take j).sum := by
  have h1 : l.take j = (l.take j).take i ++ (l.take j).drop i :=
    (List.take_append_drop i (l.take j)).symm
  have h2 : (l.take j).take i = l.take i := by
    rw [List.take_take, min_eq_left hij]
  have h3 : 0 ≤ ((l.take j).drop i).sum :=
    List.sum_nonneg
      (fun a ha => hnn a (List.take_subset _ _ (List.drop_subset _ _ ha)))
  have h4 : (l.take j).sum = (l.take i).sum + ((l.take j).drop i).sum := by
    conv_lhs => rw [h1]
    rw [List.sum_append, h2]
  linarith

/-- Core of C9: with a strictly positive density list `P` over a strictly
increasing grid `x`, the discretized POE `1 - cumsum/max(cumsum)` read at
the nearest index of a larger threshold is at most its value at a smaller
threshold. -/
theorem poe_getD_antitone (P x : List ℚ)
    (hxlen : x.length = P.length) (hne : P ≠ [])
    (hpos : ∀ a ∈ P, 0 < a)
    (hxmono : ∀ i j, i < j → j < x.length → x.getD i 0 < x.getD j 0)
    (z1 z2 : ℚ) (h12 : z1 ≤ z2) :
    ((cumsum P).map (fun c2 => 1 - c2 / listMax (cumsum P))).getD
        (find_nearest_index x z2) 0 ≤
      ((cumsum P).map (fun c2 => 1 - c2 / listMax (cumsum P))).getD
        (find_nearest_index x z1) 0 := by
  have hPlen : 0 < P.length := List.length_pos.mpr hne
  have hxne : x ≠ [] := by
    intro h
    rw [h] at hxlen
    simp only [List.length_nil] at hxlen
    omega
  have hi12 := fni_mono x hxmono hxne z1 z2 h12
  have hlt2 : find_nearest_index x z2 < x.length :=
    (find_nearest_index_spec x z2 hxne).1
  have hlt1 : find_nearest_index x z1 < x.length :=
    (find_nearest_index_spec x z1 hxne).1
  have hcslen : (cumsum P).length = P.length := length_cumsum P
  rw [getD_map_of_lt _ _ _ (by omega) 0, getD_map_of_lt _ _ _ (by omega) 0,
    cumsum_getD P _ (by omega), cumsum_getD P _ (by omega)]
  have hmono2 := prefix_sum_mono P (fun a ha => le_of_lt (hpos a ha))
    (find_nearest_index x z1 + 1) (find_nearest_index x z2 + 1) (by omega)
  have hMge : (P.take (find_nearest_index x z2 + 1)).sum ≤
      listMax (cumsum P) := by
    apply le_listMax
    rw [← cumsum_getD P _ (by omega),
      getD_eq_getElem_of_lt _ _ _ (by omega)]
    exact List.getElem_mem _
  have htakene : P.take (find_nearest_index x z1 + 1) ≠ [] := by
    intro h
    have hlen := congrArg List.length h
    rw [List.length_take] at hlen
    simp only [List.length_nil] at hlen
    omega
  have hpos2 : 0 < (P.take (find_nearest_index x z1 + 1)).sum :=
    List.sum_pos _ (fun a ha => hpos a (List.take_subset _ _ ha)) htakene
  have hM : 0 < listMax (cumsum P) :=
    lt_of_lt_of_le (lt_of_lt_of_le hpos2 hmono2) hMge
  have hdiv : (P.take (find_nearest_index x z1 + 1)).sum / listMax (cumsum P) ≤
      (P.take (find_nearest_index x z2 + 1)).sum / listMax (cumsum P) :=
    (div_le_div_right hM).mpr hmono2
  linarith

/-- C9: POE monotonicity in the requested percentile.  With a strictly
positive Gaussian density, a strictly increasing quantile function on
`(0, 1)`, a nonempty ensemble and strictly ascending percentiles inside
`(0, 100)`, the POE values reported by `make_poe` are non-increasing. -/
theorem make_poe_poe_antitone
    (normpdf : ℚ → ℚ → ℚ → ℚ) (normppf : ℚ → ℚ)
    (ensemble_array ptiles : List ℚ) (kernel_std : ℚ)
    (hens : ensemble_array ≠ [])
    (hpdf : ∀ xv mu, 0 < normpdf xv mu kernel_std)
    (hppf : ∀ a b, 0 < a → a < b → b < 1 → normppf a < normppf b)
    (hsorted : ptiles.Chain' (· < ·))
    (hrange : ∀ p ∈ ptiles, 0 < p ∧ p < 100) :
    (make_poe normpdf normppf ensemble_array ptiles kernel_std).Chain'
      (fun a b => b ≤ a) := by
  simp only [make_poe]
  generalize hX : linspace (-4 : ℚ) 4 1000 = X
  have hXlen : X.length = 1000 := by rw [← hX]; exact length_linspace _ _ _
  have hXmono : ∀ i j, i < j → j < X.length → X.getD i 0 < X.getD j 0 := by
    intro i j hij hj
    rw [← hX] at hj ⊢
    rw [length_linspace] at hj
    exact linspace_strictMono (-4) 4 1000 (by norm_num) (by norm_num) i j hij hj
  rw [List.chain'_map, List.chain'_map]
  apply List.Pairwise.chain'
  apply List.Pairwise.imp_of_mem ?_ (List.chain'_iff_pairwise.mp hsorted)
  intro p1 p2 h1 h2 hlt
  obtain ⟨h1a, h1b⟩ := hrange p1 h1
  obtain ⟨h2a, h2b⟩ := hrange p2 h2
  have hz : normppf (p1 / 100) < normppf (p2 / 100) := by
    apply hppf
    · exact div_pos h1a (by norm_num)
    · exact (div_lt_div_right (by norm_num)).mpr hlt
    · exact (div_lt_one (by norm_num)).mpr h2b
  apply poe_getD_antitone
  · rw [List.length_map, List.length_range]
  · intro h
    have hlen := congrArg List.length h
    rw [List.length_map, List.length_range] at hlen
    simp only [List.length_nil] at hlen
    omega
  · intro a ha
    obtain ⟨j, hjmem, rfl⟩ := List.mem_map.mp ha
    have hj : j < X.length := List.mem_range.mp hjmem
    rw [List.map_map]
    apply List.sum_pos
    · intro b hb
      obtain ⟨e, he, rfl⟩ := List.mem_map.mp hb
      simp only [Function.comp]
      rw [getD_map_of_lt _ _ j hj 0]
      exact div_pos (hpdf _ _)
        (by exact_mod_cast List.length_pos.mpr hens)
    · simp only [ne_eq, List.map_eq_nil]
      exact hens
  · exact hXmono
  · exact le_of_lt hz

/-- Witness for C9 at a concrete input: constant density `1`, identity
quantile function, one ensemble member and percentiles `[30, 60]`. -/
theorem make_poe_poe_antitone_witness :
    (make_poe (fun _ _ _ => 1) id [0] [30, 60] 1).Chain'
      (fun a b => b ≤ a) :=
  make_poe_poe_antitone (fun _ _ _ => 1) id [0] [30, 60] 1
    (by simp) (fun _ _ => by norm_num) (fun a b _ h _ => h)
    (by norm_num [List.chain'_cons, List.chain'_singleton])
    (by intro p hp; fin_cases hp <;> norm_num)
